import Mathlib

/-!
FastLDA: collapsed Gibbs sampler for LDA (`cpp/lda.cpp`)

A shallow embedding of the `LDA` class: the count tables, the constructor with
`initialize`, `estimate`, `calculate_perplexity`, `infer` and the two matrix
extraction methods.

Conventions of the embedding.

* `size_t` is a natural number below `2 ^ 64`; `++` and `--` are taken modulo
  `2 ^ 64`.
* `float` arithmetic is replaced by exact rational arithmetic.  A division whose
  divisor is zero has no value (`none`); the result of a float expression is an
  `Option ℚ`.  Statements about these values are statements in exact
  arithmetic.  Where the rounding of the code matters, `f32` rounds a rational
  to binary32 and `scoreF32`, `prob_vectorF32` are the scores as the code
  computes them.
* `vector` is `List`; reading uses `getD` and writing uses `set`.
* The random engine together with a distribution object is an outcome oracle:
  the `i`-th draw of the run is a function of `i` and of the parameters the
  distribution was built from.  All theorems quantify over the oracle.
* A `for` loop over `0 .. N-1` is a left fold over `List.range N`.
-/

namespace FastLDA

/-! ## Machine integers and vectors -/

/-- Number of values of a `size_t`. -/
def SIZE_MOD : Nat := 2 ^ 64

/-- The operator `x++` on a `size_t`. -/
def incr (x : Nat) : Nat := (x + 1) % SIZE_MOD

/-- The operator `x--` on a `size_t`. -/
def decr (x : Nat) : Nat := (x + (SIZE_MOD - 1)) % SIZE_MOD

/-- Read `v[i]`. -/
def get1 (v : List Nat) (i : Nat) : Nat := v.getD i 0

/-- Read `m[i][j]`. -/
def get2 (m : List (List Nat)) (i j : Nat) : Nat := (m.getD i []).getD j 0

/-- Apply `f` in place to `v[i]`. -/
def upd1 (f : Nat → Nat) (v : List Nat) (i : Nat) : List Nat :=
  v.set i (f (v.getD i 0))

/-- Apply `f` in place to `m[i][j]`. -/
def upd2 (f : Nat → Nat) (m : List (List Nat)) (i j : Nat) : List (List Nat) :=
  m.set i (upd1 f (m.getD i []) j)

/-- Assignment `m[i][j] = x`. -/
def set2 (m : List (List Nat)) (i j x : Nat) : List (List Nat) :=
  upd2 (fun _ => x) m i j

/-- Float division in exact arithmetic: no value when the divisor is zero. -/
def fdiv (a b : ℚ) : Option ℚ := if b = 0 then none else some (a / b)

/-- Accumulation `acc += x` of float values, starting from `0`. -/
def fsum (l : List (Option ℚ)) : Option ℚ :=
  l.foldl (fun acc x => acc.bind (fun a => x.map (fun b => a + b))) (some 0)

/-! ## Random engine -/

/-- A random engine.  `uniform i lo hi` is the outcome of the `i`-th draw when
it is made through `uniform_int_distribution<>(lo, hi)`, `discrete i w` the
outcome when it is made through `discrete_distribution` built from the weights
`w`; `pos` counts the draws made so far. -/
structure Generator where
  uniform : Nat → Nat → Nat → Nat
  discrete : Nat → List (Option ℚ) → Nat
  pos : Nat

/-- The engine after one draw. -/
def Generator.advance (g : Generator) : Generator := { g with pos := g.pos + 1 }

/-- Outcome of `uniform_int_distribution<>(lo, hi)(g)`. -/
def Generator.uniform_int (g : Generator) (lo hi : Nat) : Nat := g.uniform g.pos lo hi

/-- Outcome of `discrete_distribution<size_t>(w.begin(), w.end())(g)`. -/
def Generator.mult (g : Generator) (w : List (Option ℚ)) : Nat := g.discrete g.pos w

/-- The draws respect the ranges of the distributions: a uniform draw lies in
`[lo, hi]`, a categorical draw is an index of the weight vector. -/
def Generator.Valid (g : Generator) : Prop :=
  (∀ i lo hi, lo ≤ hi → lo ≤ g.uniform i lo hi ∧ g.uniform i lo hi ≤ hi) ∧
  (∀ i w, w ≠ [] → g.discrete i w < w.length)

/-! ## The engine -/

/-- The members of `class LDA`. -/
structure LDA where
  docs : List (List Nat)
  K : Nat
  alpha : ℚ
  beta : ℚ
  V : Nat
  Z : List (List Nat)
  CDK : List (List Nat)
  CKW : List (List Nat)
  CK : List Nat
  total_num_of_words : Nat
  generator : Generator

/-- Body of the inner loop of `LDA::initialize` (token `n` of document `d`).
The bound `K - 1` of `uniform_topic_dist` is the one of the source for `K >= 1`. -/
def initToken (d : Nat) (s : LDA) (n : Nat) : LDA :=
  let term_id := get2 s.docs d n
  let topic_id := s.generator.uniform_int 0 (s.K - 1)
  { s with
    CDK := upd2 incr s.CDK d topic_id
    CKW := upd2 incr s.CKW topic_id term_id
    CK := upd1 incr s.CK topic_id
    Z := set2 s.Z d n topic_id
    generator := s.generator.advance }

/-- Body of the outer loop of `LDA::initialize` (document `d`). -/
def initDoc (s : LDA) (d : Nat) : LDA :=
  let N := (s.docs.getD d []).length
  let s1 : LDA := { s with
    Z := s.Z.set d (List.replicate N 0)
    total_num_of_words := (s.total_num_of_words + N) % SIZE_MOD }
  (List.range N).foldl (initToken d) s1

/-- The method `LDA::initialize` (named `init` here). -/
def init (s : LDA) : LDA :=
  (List.range s.docs.length).foldl initDoc s

/-- The constructor `LDA::LDA`: member initialisers, then `initialize()`. -/
def LDA.construct (docs : List (List Nat)) (V K : Nat) (alpha beta : ℚ)
    (g : Generator) : LDA :=
  init
    { docs := docs, K := K, alpha := alpha, beta := beta, V := V
      Z := List.replicate docs.length []
      CDK := List.replicate docs.length (List.replicate K 0)
      CKW := List.replicate K (List.replicate V 0)
      CK := List.replicate K 0
      total_num_of_words := 0
      generator := g }

/-- The three decrements of `LDA::estimate` for token `n` of document `d`
("ignore current count"). -/
def retract (d : Nat) (s : LDA) (n : Nat) : LDA :=
  let topic_id := get2 s.Z d n
  let term_id := get2 s.docs d n
  { s with
    CDK := upd2 decr s.CDK d topic_id
    CKW := upd2 decr s.CKW topic_id term_id
    CK := upd1 decr s.CK topic_id }

/-- The score `((cdk + alpha) * (ckw + beta)) / (ck + V * beta)` in exact
arithmetic: the rational value of the expression, without the rounding of the
`float` operations (for which see `scoreF32`). -/
def score (alpha beta : ℚ) (V cdk ckw ck : Nat) : Option ℚ :=
  fdiv (((cdk : ℚ) + alpha) * ((ckw : ℚ) + beta)) ((ck : ℚ) + (V : ℚ) * beta)

/-- The loop filling `prob_vector` in `LDA::estimate`, on the current tables. -/
def scores (s : LDA) (d term_id : Nat) : List (Option ℚ) :=
  (List.range s.K).map fun k =>
    score s.alpha s.beta s.V (get2 s.CDK d k) (get2 s.CKW k term_id) (get1 s.CK k)

/-- The vector `prob_vector` handed to the sampler in `LDA::estimate` for token
`n` of document `d`: the scores on the tables after the decrements, in exact
arithmetic. -/
def prob_vector (d : Nat) (s : LDA) (n : Nat) : List (Option ℚ) :=
  scores (retract d s n) d (get2 s.docs d n)

/-- The draw and the three increments of `LDA::estimate`, with the new topic
written to `Z[d][n]`. -/
def commit (d : Nat) (s : LDA) (n : Nat) (w : List (Option ℚ)) : LDA :=
  let term_id := get2 s.docs d n
  let topic_id := s.generator.mult w
  { s with
    Z := set2 s.Z d n topic_id
    CDK := upd2 incr s.CDK d topic_id
    CKW := upd2 incr s.CKW topic_id term_id
    CK := upd1 incr s.CK topic_id
    generator := s.generator.advance }

/-- Body of the innermost token loop of `LDA::estimate`. -/
def estimateToken (d : Nat) (s : LDA) (n : Nat) : LDA :=
  commit d (retract d s n) n (prob_vector d s n)

/-- One pass of `LDA::estimate` over document `d`. -/
def estimateDoc (s : LDA) (d : Nat) : LDA :=
  (List.range (s.docs.getD d []).length).foldl (estimateToken d) s

/-- One full pass of `LDA::estimate` over the corpus. -/
def estimatePass (s : LDA) : LDA :=
  (List.range s.docs.length).foldl estimateDoc s

/-- The method `LDA::estimate`. -/
def estimate (s : LDA) (num_iterations : Nat) : LDA :=
  (List.range num_iterations).foldl (fun s _ => estimatePass s) s

/-- The value of `likelihood` that `LDA::calculate_perplexity` passes to `log`
for token `n` of document `d`. -/
def likelihood (s : LDA) (d n : Nat) : Option ℚ :=
  let term_id := get2 s.docs d n
  let N := (s.docs.getD d []).length
  fsum ((List.range s.K).map fun k =>
    fdiv (((get2 s.CDK d k : ℚ) + s.alpha) * ((get2 s.CKW k term_id : ℚ) + s.beta))
      (((s.K : ℚ) * s.alpha + (N : ℚ)) * ((get1 s.CK k : ℚ) + (s.V : ℚ) * s.beta)))

/-- The likelihoods of all tokens in the order `LDA::calculate_perplexity`
visits them. -/
def likelihoods (s : LDA) : List (Option ℚ) :=
  (List.range s.docs.length).flatMap fun d =>
    (List.range (s.docs.getD d []).length).map fun n => likelihood s d n

/-- The method `LDA::getDocTopicMatrix`. -/
def getDocTopicMatrix (s : LDA) : List (List (Option ℚ)) :=
  (List.range s.docs.length).map fun d =>
    let N := (s.docs.getD d []).length
    (List.range s.K).map fun k =>
      fdiv ((get2 s.CDK d k : ℚ) + s.alpha) ((N : ℚ) + (s.K : ℚ) * s.alpha)

/-- The method `LDA::getTopicTermMatrix`. -/
def getTopicTermMatrix (s : LDA) : List (List (Option ℚ)) :=
  (List.range s.K).map fun k =>
    (List.range s.V).map fun v =>
      fdiv ((get2 s.CKW k v : ℚ) + s.beta) ((get1 s.CK k : ℚ) + (s.V : ℚ) * s.beta)

/-! ## Held-out inference -/

/-- The program state during `LDA::infer`: the engine (`*this`), the argument
and the locals. -/
structure InferState where
  self : LDA
  batch_docs : List (List Nat)
  cdk : List (List Nat)
  theta : List (List (Option ℚ))
  topic_indices : List (List Nat)
  prob_vector : List (Option ℚ)
  local_generator : Generator

/-- The declarations at the head of `LDA::infer`. -/
def inferAlloc (e : LDA) (batch_docs : List (List Nat)) (g : Generator) : InferState :=
  { self := e
    batch_docs := batch_docs
    cdk := List.replicate batch_docs.length (List.replicate e.K 0)
    theta := List.replicate batch_docs.length (List.replicate e.K (some 0))
    topic_indices := List.replicate batch_docs.length []
    prob_vector := List.replicate e.K (some 0)
    local_generator := g }

/-- Inner loop body of "initialize counts" in `LDA::infer`. -/
def inferInitToken (d : Nat) (st : InferState) (n : Nat) : InferState :=
  let topic_id := st.local_generator.uniform_int 0 (st.self.K - 1)
  { st with
    cdk := upd2 incr st.cdk d topic_id
    topic_indices := set2 st.topic_indices d n topic_id
    local_generator := st.local_generator.advance }

/-- The statement `topic_indices[d] = vector<size_t>(N)` of `LDA::infer`. -/
def inferInitRow (st : InferState) (d : Nat) : InferState :=
  { st with
    topic_indices := st.topic_indices.set d (List.replicate (st.batch_docs.getD d []).length 0) }

/-- Outer loop body of "initialize counts" in `LDA::infer`. -/
def inferInitDoc (st : InferState) (d : Nat) : InferState :=
  (List.range (st.batch_docs.getD d []).length).foldl (inferInitToken d) (inferInitRow st d)

/-- Token loop body of the "infer" passes of `LDA::infer`. -/
def inferToken (d : Nat) (st : InferState) (n : Nat) : InferState :=
  let topic_id := get2 st.topic_indices d n
  let term_id := get2 st.batch_docs d n
  let cdk1 := upd2 decr st.cdk d topic_id
  let pv := (List.range st.self.K).map fun k =>
    score st.self.alpha st.self.beta st.self.V (get2 cdk1 d k)
      (get2 st.self.CKW k term_id) (get1 st.self.CK k)
  let topic_new := st.local_generator.mult pv
  { st with
    cdk := upd2 incr cdk1 d topic_new
    prob_vector := pv
    local_generator := st.local_generator.advance }

/-- One pass of the "infer" loop over document `d` of the batch. -/
def inferDoc (st : InferState) (d : Nat) : InferState :=
  (List.range (st.batch_docs.getD d []).length).foldl (inferToken d) st

/-- One pass of the "infer" loop over the batch. -/
def inferPass (st : InferState) : InferState :=
  (List.range st.batch_docs.length).foldl inferDoc st

/-- Row `d` of `theta` as the last loop of `LDA::infer` fills it. -/
def inferThetaRow (st : InferState) (d : Nat) : List (Option ℚ) :=
  let N := (st.batch_docs.getD d []).length
  (List.range st.self.K).map fun k =>
    fdiv ((get2 st.cdk d k : ℚ) + st.self.alpha) ((N : ℚ) + (st.self.K : ℚ) * st.self.alpha)

/-- Body of the last loop of `LDA::infer` over documents. -/
def inferThetaDoc (st : InferState) (d : Nat) : InferState :=
  { st with theta := st.theta.set d (inferThetaRow st d) }

/-- The last loop of `LDA::infer`. -/
def inferTheta (st : InferState) : InferState :=
  (List.range st.batch_docs.length).foldl inferThetaDoc st

/-- The program state when `LDA::infer` returns. -/
def inferRun (e : LDA) (batch_docs : List (List Nat)) (num_iterations : Nat)
    (g : Generator) : InferState :=
  let st0 := inferAlloc e batch_docs g
  let st1 := (List.range batch_docs.length).foldl inferInitDoc st0
  let st2 := (List.range num_iterations).foldl (fun st _ => inferPass st) st1
  inferTheta st2

/-- The method `LDA::infer`: the matrix it returns. -/
def infer (e : LDA) (batch_docs : List (List Nat)) (num_iterations : Nat)
    (g : Generator) : List (List (Option ℚ)) :=
  (inferRun e batch_docs num_iterations g).theta

/-! ## Aggregates of the assignment state -/

/-- The tokens of a corpus: the pairs `(d, n)` with `n` a position of document `d`. -/
def tokens (docs : List (List Nat)) : Finset (Nat × Nat) :=
  (Finset.range docs.length).biUnion fun d =>
    (Finset.range (docs.getD d []).length).image (Prod.mk d)

/-- Number of tokens `(d, n)` of the corpus with the property `P d n`. -/
def cnt (docs : List (List Nat)) (P : Nat → Nat → Prop) [∀ d n, Decidable (P d n)] : Nat :=
  ((tokens docs).filter fun p => P p.1 p.2).card

/-- Number of tokens of document `d` that are counted by the mask `M` and carry
topic `k` in `Z`. -/
def nDK (docs : List (List Nat)) (M : Nat → Nat → Bool) (Z : List (List Nat))
    (d k : Nat) : Nat :=
  cnt docs fun d' n' => M d' n' = true ∧ d' = d ∧ get2 Z d' n' = k

/-- Number of tokens of the corpus that are counted by the mask `M`, have term
`w` and carry topic `k` in `Z`. -/
def nKW (docs : List (List Nat)) (M : Nat → Nat → Bool) (Z : List (List Nat))
    (k w : Nat) : Nat :=
  cnt docs fun d' n' => M d' n' = true ∧ get2 docs d' n' = w ∧ get2 Z d' n' = k

/-- Number of tokens of the corpus that are counted by the mask `M` and carry
topic `k` in `Z`. -/
def nK (docs : List (List Nat)) (M : Nat → Nat → Bool) (Z : List (List Nat))
    (k : Nat) : Nat :=
  cnt docs fun d' n' => M d' n' = true ∧ get2 Z d' n' = k

/-- The mask `M` with token `(d, n)` added. -/
def maskAdd (M : Nat → Nat → Bool) (d n : Nat) : Nat → Nat → Bool :=
  fun d' n' => M d' n' || (d' == d && n' == n)

/-- The mask `M` with token `(d, n)` removed. -/
def maskDel (M : Nat → Nat → Bool) (d n : Nat) : Nat → Nat → Bool :=
  fun d' n' => M d' n' && !(d' == d && n' == n)

/-- The mask counting every token. -/
def maskAll : Nat → Nat → Bool := fun _ _ => true

/-- The tokens assigned when `LDA::initialize` is about to handle token `n` of
document `d`. -/
def maskInit (d n : Nat) : Nat → Nat → Bool :=
  fun d' n' => decide (d' < d ∨ (d' = d ∧ n' < n))

/-- The tables of `s` have their allocated shape and are the tallies of the
tokens counted by `M`, whose topics lie below `K`. -/
structure Agg (M : Nat → Nat → Bool) (s : LDA) : Prop where
  lenZ : s.Z.length = s.docs.length
  lenCDK : s.CDK.length = s.docs.length
  rowCDK : ∀ d, d < s.docs.length → (s.CDK.getD d []).length = s.K
  lenCKW : s.CKW.length = s.K
  rowCKW : ∀ k, k < s.K → (s.CKW.getD k []).length = s.V
  lenCK : s.CK.length = s.K
  zlt : ∀ d n, d < s.docs.length → n < (s.docs.getD d []).length → M d n = true →
    get2 s.Z d n < s.K
  cdk : ∀ d k, d < s.docs.length → k < s.K → get2 s.CDK d k = nDK s.docs M s.Z d k
  ckw : ∀ k w, k < s.K → w < s.V → get2 s.CKW k w = nKW s.docs M s.Z k w
  ck : ∀ k, k < s.K → get1 s.CK k = nK s.docs M s.Z k

/-- The inputs of the engine are well formed: term ids below `V`, at least one
topic, draws inside their ranges, and a token count that fits a `size_t`. -/
structure WF (s : LDA) : Prop where
  terms : ∀ d n, d < s.docs.length → n < (s.docs.getD d []).length → get2 s.docs d n < s.V
  topics : 1 ≤ s.K
  draws : s.generator.Valid
  size : (tokens s.docs).card < SIZE_MOD

/-- The invariant of the engine between two token updates. -/
structure Inv (s : LDA) : Prop where
  wf : WF s
  agg : Agg maskAll s
  rowZ : ∀ d, d < s.docs.length → (s.Z.getD d []).length = (s.docs.getD d []).length
  total : s.total_num_of_words = (tokens s.docs).card

/-- Every term id of the corpus is below `V`. -/
def TermsBelow (docs : List (List Nat)) (V : Nat) : Prop :=
  ∀ doc ∈ docs, ∀ w ∈ doc, w < V

/-- Total number of tokens of a corpus. -/
def numTokens (docs : List (List Nat)) : Nat := (docs.map List.length).sum

/-- The engine states reachable by construction on valid inputs followed by
token updates of `LDA::estimate`. -/
inductive Reachable : LDA → Prop
  | construct (docs : List (List Nat)) (V K : Nat) (alpha beta : ℚ) (g : Generator) :
      TermsBelow docs V → 1 ≤ K → g.Valid → numTokens docs < 2 ^ 64 →
      Reachable (LDA.construct docs V K alpha beta g)
  | update (s : LDA) (d n : Nat) :
      Reachable s → d < s.docs.length → n < (s.docs.getD d []).length →
      Reachable (estimateToken d s n)

/-- The loop invariant of `LDA::initialize` when token `n` of document `d` is
next and the rows of `Z` before document `dz` are allocated. -/
structure InitInv (d n dz : Nat) (s : LDA) : Prop where
  wf : WF s
  agg : Agg (maskInit d n) s
  rowZ : ∀ d', d' < dz → (s.Z.getD d' []).length = (s.docs.getD d' []).length
  total : s.total_num_of_words = ∑ d' ∈ Finset.range dz, (s.docs.getD d' []).length

/-- The state `s'` has the corpus and the parameters of `s`. -/
def SameParams (s s' : LDA) : Prop :=
  s'.docs = s.docs ∧ s'.K = s.K ∧ s'.V = s.V ∧ s'.alpha = s.alpha ∧ s'.beta = s.beta

/-- The program states `LDA::infer` goes through, at the granularity of the
statements of its loops. -/
inductive InferReachable (e : LDA) (batch_docs : List (List Nat)) (g : Generator) :
    InferState → Prop
  | alloc : InferReachable e batch_docs g (inferAlloc e batch_docs g)
  | initRow (st : InferState) (d : Nat) :
      InferReachable e batch_docs g st → InferReachable e batch_docs g (inferInitRow st d)
  | initToken (st : InferState) (d n : Nat) :
      InferReachable e batch_docs g st → InferReachable e batch_docs g (inferInitToken d st n)
  | token (st : InferState) (d n : Nat) :
      InferReachable e batch_docs g st → InferReachable e batch_docs g (inferToken d st n)
  | thetaDoc (st : InferState) (d : Nat) :
      InferReachable e batch_docs g st → InferReachable e batch_docs g (inferThetaDoc st d)

/-- A random engine used in the examples: the `i`-th uniform draw from
`[lo, hi]` is `lo + i mod (hi - lo + 1)`, the `i`-th categorical draw is
`i mod K`. -/
def cyclicGen : Generator :=
  { uniform := fun i lo hi => lo + i % (hi - lo + 1)
    discrete := fun i w => i % w.length
    pos := 0 }

/-- The corpus of the scenario: two documents over the vocabulary `{0, 1, 2}`. -/
def scenarioDocs : List (List Nat) := [[0, 1, 0], [1, 2]]

/-- The engine of the scenario right after construction. -/
def scenarioEngine : LDA := LDA.construct scenarioDocs 3 2 (1 / 10) (1 / 10) cyclicGen

/-- Index of the first weight that is defined and positive. -/
def firstPositive (w : List (Option ℚ)) : Nat :=
  w.findIdx fun x => match x with
    | some q => decide (0 < q)
    | none => false

/-- A random engine whose first two uniform draws are `lo` and whose later
uniform draws are `hi`; a categorical draw returns the first index of positive
weight. -/
def splitGen : Generator :=
  { uniform := fun i lo hi => if i < 2 then lo else hi
    discrete := fun _ w => firstPositive w
    pos := 0 }

/-- A random engine whose uniform draws are `lo`; a categorical draw returns
the first index of positive weight. -/
def lowGen : Generator :=
  { uniform := fun _ lo _ => lo
    discrete := fun _ w => firstPositive w
    pos := 0 }

/-- An engine over the corpus `[[0, 0], [1, 1]]` with `V = 2`, `K = 2`,
`alpha = 1/10`, `beta = 0`, trained for one pass: document 0 holds topic 0 and
document 1 holds topic 1. -/
def splitEngine : LDA :=
  estimate (LDA.construct [[0, 0], [1, 1]] 2 2 (1 / 10) 0 splitGen) 1

/-- A random engine whose uniform draws are `lo` and whose categorical draws
are all `1`. -/
def oneGen : Generator :=
  { uniform := fun _ lo _ => lo
    discrete := fun _ _ => 1
    pos := 0 }

/-- Every entry of the matrix `m` is below `K`. -/
def EntriesBelow (m : List (List Nat)) (K : Nat) : Prop :=
  ∀ row ∈ m, ∀ z ∈ row, z < K

/-- Two program states of `LDA::infer` have the same argument and locals, and
engines with the same `K`, `V`, `alpha`, `beta`, `CKW` and `CK`. -/
structure InferSim (a b : InferState) : Prop where
  K : a.self.K = b.self.K
  V : a.self.V = b.self.V
  alpha : a.self.alpha = b.self.alpha
  beta : a.self.beta = b.self.beta
  CKW : a.self.CKW = b.self.CKW
  CK : a.self.CK = b.self.CK
  batch_docs : a.batch_docs = b.batch_docs
  cdk : a.cdk = b.cdk
  theta : a.theta = b.theta
  topic_indices : a.topic_indices = b.topic_indices
  prob_vector : a.prob_vector = b.prob_vector
  local_generator : a.local_generator = b.local_generator

/-- An engine right after construction on the corpus `[[0], []]` with `V = 1`,
`K = 2`, `alpha = 0`, `beta = 1/10`. -/
def emptyDocEngine : LDA := LDA.construct [[0], []] 1 2 0 (1 / 10) cyclicGen

/-- An engine right after construction on the corpus `[[0]]` with `V = 1`,
`K = 2`, `alpha = 1`, `beta = 0`: the token gets topic 0 and topic 1 is empty. -/
def emptyTopicEngine : LDA := LDA.construct [[0]] 1 2 1 0 cyclicGen

/-- An engine right after construction on the corpus `[[0, 1]]` with `V = 2`,
`K = 1`, `alpha = 1`, `beta = 0`. -/
def rareTermEngine : LDA := LDA.construct [[0, 1]] 2 1 1 0 cyclicGen

/-- An engine right after construction on the corpus `[[0]]` with `V = 1`,
`K = 1`, `alpha = 0`, `beta = 1`. -/
def loneTokenEngine : LDA := LDA.construct [[0]] 1 1 0 1 cyclicGen

/-- The topic `estimate` samples for token `n` of document `d` in state `s`. -/
def sampled (d : Nat) (s : LDA) (n : Nat) : Nat :=
  (retract d s n).generator.mult (prob_vector d s n)

/-- The tokens of a corpus in the order of the loops of `estimate`: by
document, then by position. -/
def tokenOrder (docs : List (List Nat)) : List (Nat × Nat) :=
  (List.range docs.length).flatMap fun d =>
    (List.range (docs.getD d []).length).map fun n => (d, n)

/-- Token `p` comes before token `q`: an earlier document, or the same document
and an earlier position. -/
def tokenLt (p q : Nat × Nat) : Prop :=
  p.1 < q.1 ∨ (p.1 = q.1 ∧ p.2 < q.2)

/-- The program state of `LDA::infer` after "initialize counts" and
`num_iterations` passes of the "infer" loop, before `theta` is filled. -/
def inferPasses (e : LDA) (batch_docs : List (List Nat)) (num_iterations : Nat)
    (g : Generator) : InferState :=
  (List.range num_iterations).foldl (fun st _ => inferPass st)
    ((List.range batch_docs.length).foldl inferInitDoc (inferAlloc e batch_docs g))

/-- Product of two float values. -/
def fmul (a b : Option ℚ) : Option ℚ := a.bind fun x => b.map fun y => x * y

/-- The likelihood of token `n` of document `d` computed from the two extracted
matrices: the sum over `k` of `theta[d][k] * phi[k][w]`, with
`theta = getDocTopicMatrix()`, `phi = getTopicTermMatrix()` and `w = docs[d][n]`. -/
def likelihoodFromMatrices (s : LDA) (d n : Nat) : Option ℚ :=
  let theta := getDocTopicMatrix s
  let phi := getTopicTermMatrix s
  let w := get2 s.docs d n
  fsum ((List.range s.K).map fun k =>
    fmul ((theta.getD d []).getD k none) ((phi.getD k []).getD w none))

/-! ## Binary32 arithmetic -/

/-- Nearest natural number to `r >= 0`, ties to even. -/
def roundHalfEven (r : ℚ) : Nat :=
  let n := r.num.toNat
  let d := r.den
  let q := n / d
  let rem := n % d
  if 2 * rem < d then q else if d < 2 * rem then q + 1 else if q % 2 = 0 then q else q + 1

/-- Rounding of `a >= 0` to binary32 (round to nearest, ties to even): in units
of `2 ^ -149` the result is a multiple of `2 ^ m`, with `m` the largest
exponent such that `2 ^ (m + 23) <= a * 2 ^ 149` (`m = 0` for subnormals); no
finite value from `2 ^ 128` on. -/
def f32abs (a : ℚ) : Option ℚ :=
  let y := a * ((2 ^ 149 : Nat) : ℚ)
  let m := ((List.range 254).reverse.find? fun m => ((2 ^ (m + 23) : Nat) : ℚ) ≤ y).getD 0
  let n := roundHalfEven (y / ((2 ^ m : Nat) : ℚ))
  if 2 ^ 277 ≤ n * 2 ^ m then none else some (((n * 2 ^ m : Nat) : ℚ) / ((2 ^ 149 : Nat) : ℚ))

/-- Rounding of a rational to binary32; `none` when the result is not finite. -/
def f32 (x : ℚ) : Option ℚ :=
  if 0 ≤ x then f32abs x else (f32abs (-x)).map fun r => -r

/-- Float addition: the exact sum rounded to binary32. -/
def f32add (a b : Option ℚ) : Option ℚ := a.bind fun x => b.bind fun y => f32 (x + y)

/-- Float multiplication: the exact product rounded to binary32. -/
def f32mul (a b : Option ℚ) : Option ℚ := a.bind fun x => b.bind fun y => f32 (x * y)

/-- Float division: the exact quotient rounded to binary32; no finite value
when the divisor is zero. -/
def f32div (a b : Option ℚ) : Option ℚ :=
  a.bind fun x => b.bind fun y => if y = 0 then none else f32 (x / y)

/-- The score `((cdk + alpha) * (ckw + beta)) / (ck + V * beta)` as the code
computes it: `alpha` and `beta` are `float` members, the `size_t` operands are
converted to `float`, and each operation is rounded to binary32. -/
def scoreF32 (alpha beta : ℚ) (V cdk ckw ck : Nat) : Option ℚ :=
  f32div
    (f32mul (f32add (f32 (cdk : ℚ)) (f32 alpha)) (f32add (f32 (ckw : ℚ)) (f32 beta)))
    (f32add (f32 (ck : ℚ)) (f32mul (f32 (V : ℚ)) (f32 beta)))

/-- The vector `prob_vector` of `LDA::estimate` for token `n` of document `d`
with the scores as binary32 values. -/
def prob_vectorF32 (d : Nat) (s : LDA) (n : Nat) : List (Option ℚ) :=
  (List.range s.K).map fun k =>
    scoreF32 s.alpha s.beta s.V (get2 (retract d s n).CDK d k)
      (get2 (retract d s n).CKW k (get2 s.docs d n)) (get1 (retract d s n).CK k)

/-- An engine right after construction on the corpus `[[0]]` with `V = 1`,
`K = 1`, `alpha = beta = 2 ^ -80`. -/
def tinyEngine : LDA := LDA.construct [[0]] 1 1 (1 / 2 ^ 80) (1 / 2 ^ 80) cyclicGen

/-- An engine right after construction on the corpus `[[0]]` with `V = 4`,
`K = 1`, `alpha = 2 ^ -149` (the smallest positive `float`), `beta = 1`. -/
def subnormalEngine : LDA := LDA.construct [[0]] 4 1 (1 / 2 ^ 149) 1 cyclicGen

/-! ## Vectors and loops -/

theorem getD_set_nat {α : Type} (l : List α) (i j : Nat) (x dflt : α) :
    (l.set i x).getD j dflt = if j = i ∧ i < l.length then x else l.getD j dflt := by
  simp only [List.getD_eq_getElem?_getD, List.getElem?_set]
  by_cases h : i = j
  · subst h
    by_cases h2 : i < l.length
    · simp [h2]
    · simp [h2, List.getElem?_eq_none (Nat.le_of_not_lt h2)]
  · have : ¬ (j = i) := fun e => h e.symm
    simp [h, this]

theorem get1_upd1 (f : Nat → Nat) (v : List Nat) (i j : Nat) :
    get1 (upd1 f v i) j = if j = i ∧ i < v.length then f (get1 v i) else get1 v j := by
  simp only [get1, upd1, getD_set_nat]

theorem length_upd1 (f : Nat → Nat) (v : List Nat) (i : Nat) :
    (upd1 f v i).length = v.length := by
  simp [upd1]

theorem length_upd2 (f : Nat → Nat) (m : List (List Nat)) (i j : Nat) :
    (upd2 f m i j).length = m.length := by
  simp [upd2]

theorem row_upd2 (f : Nat → Nat) (m : List (List Nat)) (i j i' : Nat) :
    (upd2 f m i j).getD i' [] =
      if i' = i ∧ i < m.length then upd1 f (m.getD i []) j else m.getD i' [] := by
  simp only [upd2, getD_set_nat]

theorem row_length_upd2 (f : Nat → Nat) (m : List (List Nat)) (i j i' : Nat) :
    ((upd2 f m i j).getD i' []).length = (m.getD i' []).length := by
  rw [row_upd2]
  split
  · next h => rw [length_upd1, h.1]
  · rfl

theorem get2_upd2 (f : Nat → Nat) (m : List (List Nat)) (i j i' j' : Nat) :
    get2 (upd2 f m i j) i' j' =
      if i' = i ∧ j' = j ∧ i < m.length ∧ j < (m.getD i []).length then f (get2 m i j)
      else get2 m i' j' := by
  unfold get2
  rw [row_upd2]
  by_cases h : i' = i ∧ i < m.length
  · rw [if_pos h]
    have := get1_upd1 f (m.getD i []) j j'
    simp only [get1] at this
    rw [this]
    obtain ⟨h1, h2⟩ := h
    subst h1
    by_cases h3 : j' = j ∧ j < (m.getD i' []).length
    · rw [if_pos h3, if_pos ⟨rfl, h3.1, h2, h3.2⟩]
    · rw [if_neg h3, if_neg (fun hh => h3 ⟨hh.2.1, hh.2.2.2⟩)]
  · rw [if_neg h, if_neg (fun hh => h ⟨hh.1, hh.2.2.1⟩)]

theorem foldl_range_ind {σ : Type} (f : σ → Nat → σ) (P : Nat → σ → Prop) (N : Nat) (s0 : σ)
    (h0 : P 0 s0) (hstep : ∀ i s, i < N → P i s → P (i + 1) (f s i)) :
    P N ((List.range N).foldl f s0) := by
  induction N with
  | zero => simpa using h0
  | succ n ih =>
    rw [List.range_succ, List.foldl_append]
    simp only [List.foldl_cons, List.foldl_nil]
    exact hstep n _ (Nat.lt_succ_self n)
      (ih (fun i s hi hp => hstep i s (Nat.lt_succ_of_lt hi) hp))

theorem foldl_range_inv {σ : Type} (f : σ → Nat → σ) (P : σ → Prop) (N : Nat) (s0 : σ)
    (h0 : P s0) (hstep : ∀ i s, i < N → P s → P (f s i)) :
    P ((List.range N).foldl f s0) :=
  foldl_range_ind f (fun _ s => P s) N s0 h0 hstep

/-! ## Counting tokens -/

theorem mem_tokens (docs : List (List Nat)) (d n : Nat) :
    (d, n) ∈ tokens docs ↔ d < docs.length ∧ n < (docs.getD d []).length := by
  simp only [tokens, Finset.mem_biUnion, Finset.mem_range, Finset.mem_image, Prod.mk.injEq]
  constructor
  · rintro ⟨a, ha, b, hb, rfl, rfl⟩
    exact ⟨ha, hb⟩
  · rintro ⟨h1, h2⟩
    exact ⟨d, h1, n, h2, rfl, rfl⟩

theorem cnt_congr (docs : List (List Nat)) (P Q : Nat → Nat → Prop)
    [∀ d n, Decidable (P d n)] [∀ d n, Decidable (Q d n)]
    (h : ∀ d n, d < docs.length → n < (docs.getD d []).length → (P d n ↔ Q d n)) :
    cnt docs P = cnt docs Q := by
  unfold cnt
  congr 1
  apply Finset.filter_congr
  rintro ⟨d, n⟩ hp
  rw [mem_tokens] at hp
  exact h d n hp.1 hp.2

theorem cnt_le (docs : List (List Nat)) (P : Nat → Nat → Prop)
    [∀ d n, Decidable (P d n)] : cnt docs P ≤ (tokens docs).card :=
  Finset.card_filter_le _ _

theorem cnt_add (docs : List (List Nat)) (P P' : Nat → Nat → Prop)
    [∀ d n, Decidable (P d n)] [∀ d n, Decidable (P' d n)] (d n : Nat)
    (hd : d < docs.length) (hn : n < (docs.getD d []).length)
    (hsame : ∀ d' n', d' < docs.length → n' < (docs.getD d' []).length →
      ¬ (d' = d ∧ n' = n) → (P' d' n' ↔ P d' n'))
    (hP : ¬ P d n) :
    cnt docs P' = cnt docs P + if P' d n then 1 else 0 := by
  unfold cnt
  by_cases hP' : P' d n
  · rw [if_pos hP']
    have hnot : (d, n) ∉ (tokens docs).filter fun p => P p.1 p.2 := by
      simp [hP]
    rw [← Finset.card_insert_of_not_mem hnot]
    congr 1
    ext ⟨a, b⟩
    simp only [Finset.mem_filter, Finset.mem_insert, Prod.mk.injEq, mem_tokens]
    constructor
    · rintro ⟨⟨h1, h2⟩, h3⟩
      by_cases hab : a = d ∧ b = n
      · exact Or.inl hab
      · exact Or.inr ⟨⟨h1, h2⟩, (hsame a b h1 h2 hab).1 h3⟩
    · rintro (⟨rfl, rfl⟩ | ⟨⟨h1, h2⟩, h3⟩)
      · exact ⟨⟨hd, hn⟩, hP'⟩
      · have hab : ¬ (a = d ∧ b = n) := by
          rintro ⟨rfl, rfl⟩
          exact hP h3
        exact ⟨⟨h1, h2⟩, (hsame a b h1 h2 hab).2 h3⟩
  · rw [if_neg hP', Nat.add_zero]
    congr 1
    apply Finset.filter_congr
    rintro ⟨a, b⟩ hp
    rw [mem_tokens] at hp
    by_cases hab : a = d ∧ b = n
    · obtain ⟨rfl, rfl⟩ := hab
      exact ⟨fun h => absurd h hP', fun h => absurd h hP⟩
    · exact hsame a b hp.1 hp.2 hab

theorem incr_eq (x : Nat) (h : x + 1 < SIZE_MOD) : incr x = x + 1 := by
  unfold incr
  exact Nat.mod_eq_of_lt h

theorem decr_eq (x : Nat) (h1 : 1 ≤ x) (h2 : x < SIZE_MOD) : decr x = x - 1 := by
  unfold decr
  have : x + (SIZE_MOD - 1) = (x - 1) + SIZE_MOD := by
    have : 1 ≤ SIZE_MOD := by unfold SIZE_MOD; norm_num
    omega
  rw [this, Nat.add_mod_right]
  exact Nat.mod_eq_of_lt (by omega)

theorem get2_set2 (m : List (List Nat)) (i j x i' j' : Nat) :
    get2 (set2 m i j x) i' j' =
      if i' = i ∧ j' = j ∧ i < m.length ∧ j < (m.getD i []).length then x
      else get2 m i' j' := by
  unfold set2
  rw [get2_upd2]

theorem cnt_add_mask (docs : List (List Nat)) (M : Nat → Nat → Bool) (Z Z' : List (List Nat))
    (Q : Nat → Nat → Nat → Prop) [∀ a b c, Decidable (Q a b c)] (d n t : Nat)
    (hd : d < docs.length) (hn : n < (docs.getD d []).length)
    (hM : M d n = false) (ht : get2 Z' d n = t)
    (hZ : ∀ d' n', ¬ (d' = d ∧ n' = n) → get2 Z' d' n' = get2 Z d' n') :
    cnt docs (fun d' n' => maskAdd M d n d' n' = true ∧ Q d' n' (get2 Z' d' n')) =
      cnt docs (fun d' n' => M d' n' = true ∧ Q d' n' (get2 Z d' n')) +
        if Q d n t then 1 else 0 := by
  rw [cnt_add docs (fun d' n' => M d' n' = true ∧ Q d' n' (get2 Z d' n'))
    (fun d' n' => maskAdd M d n d' n' = true ∧ Q d' n' (get2 Z' d' n')) d n hd hn]
  · congr 1
    simp [maskAdd, ht]
  · intro d' n' _ _ hne
    have hb : (d' == d && n' == n) = false := by
      simpa using hne
    simp only [maskAdd, hb, Bool.or_false, hZ d' n' hne]
  · simp [hM]

theorem cnt_del_mask (docs : List (List Nat)) (M : Nat → Nat → Bool) (Z : List (List Nat))
    (Q : Nat → Nat → Nat → Prop) [∀ a b c, Decidable (Q a b c)] (d n : Nat)
    (hd : d < docs.length) (hn : n < (docs.getD d []).length)
    (hM : M d n = true) :
    cnt docs (fun d' n' => M d' n' = true ∧ Q d' n' (get2 Z d' n')) =
      cnt docs (fun d' n' => maskDel M d n d' n' = true ∧ Q d' n' (get2 Z d' n')) +
        if Q d n (get2 Z d n) then 1 else 0 := by
  rw [cnt_add docs (fun d' n' => maskDel M d n d' n' = true ∧ Q d' n' (get2 Z d' n'))
    (fun d' n' => M d' n' = true ∧ Q d' n' (get2 Z d' n')) d n hd hn]
  · congr 1
    simp [hM]
  · intro d' n' _ _ hne
    have hb : (d' == d && n' == n) = false := by
      simpa using hne
    simp only [maskDel, hb, Bool.not_false, Bool.and_true]
  · simp [maskDel]

/-! ## The tables follow the assignments -/

theorem agg_add (M : Nat → Nat → Bool) (s s' : LDA) (d n t : Nat)
    (hA : Agg M s) (hsize : (tokens s.docs).card < SIZE_MOD)
    (hd : d < s.docs.length) (hn : n < (s.docs.getD d []).length)
    (hterm : get2 s.docs d n < s.V)
    (hM : M d n = false) (hz : n < (s.Z.getD d []).length) (ht : t < s.K)
    (hdocs : s'.docs = s.docs) (hK : s'.K = s.K) (hV : s'.V = s.V)
    (hZ : s'.Z = set2 s.Z d n t)
    (hCDK : s'.CDK = upd2 incr s.CDK d t)
    (hCKW : s'.CKW = upd2 incr s.CKW t (get2 s.docs d n))
    (hCK : s'.CK = upd1 incr s.CK t) :
    Agg (maskAdd M d n) s' := by
  have hdZ : d < s.Z.length := by rw [hA.lenZ]; exact hd
  have hZt : get2 (set2 s.Z d n t) d n = t := by
    rw [get2_set2, if_pos ⟨rfl, rfl, hdZ, hz⟩]
  have hZo : ∀ d' n', ¬ (d' = d ∧ n' = n) →
      get2 (set2 s.Z d n t) d' n' = get2 s.Z d' n' := by
    intro d' n' hne
    rw [get2_set2, if_neg (fun h => hne ⟨h.1, h.2.1⟩)]
  constructor
  · rw [hZ, hdocs, set2, length_upd2]; exact hA.lenZ
  · rw [hCDK, hdocs, length_upd2]; exact hA.lenCDK
  · intro d' hd'
    rw [hCDK, hK, row_length_upd2]
    exact hA.rowCDK d' (by rw [← hdocs]; exact hd')
  · rw [hCKW, hK, length_upd2]; exact hA.lenCKW
  · intro k hk
    rw [hCKW, hV, row_length_upd2]
    exact hA.rowCKW k (by rw [← hK]; exact hk)
  · rw [hCK, hK, length_upd1]; exact hA.lenCK
  · intro d' n' hd' hn' hm
    rw [hdocs] at hd' hn'
    rw [hZ, hK]
    by_cases hne : d' = d ∧ n' = n
    · obtain ⟨rfl, rfl⟩ := hne
      rw [hZt]; exact ht
    · rw [hZo d' n' hne]
      apply hA.zlt d' n' hd' hn'
      have hb : (d' == d && n' == n) = false := by simpa using hne
      simpa [maskAdd, hb] using hm
  · intro d' k hd' hk
    rw [hdocs] at hd'
    rw [hK] at hk
    have key : nDK s.docs (maskAdd M d n) (set2 s.Z d n t) d' k =
        nDK s.docs M s.Z d' k + if d = d' ∧ t = k then 1 else 0 :=
      cnt_add_mask s.docs M s.Z (set2 s.Z d n t) (fun a _ c => a = d' ∧ c = k)
        d n t hd hn hM hZt hZo
    have hle : nDK s.docs (maskAdd M d n) (set2 s.Z d n t) d' k ≤ (tokens s.docs).card :=
      cnt_le _ _
    rw [hCDK, hZ, hdocs, get2_upd2, key]
    have hrow := hA.rowCDK d hd
    have hold := hA.cdk d' k hd' hk
    by_cases hc : d' = d ∧ k = t
    · obtain ⟨rfl, rfl⟩ := hc
      rw [if_pos ⟨rfl, rfl, by rw [hA.lenCDK]; exact hd, by rw [hrow]; exact ht⟩,
        if_pos ⟨rfl, rfl⟩, hold]
      rw [key, if_pos ⟨rfl, rfl⟩] at hle
      exact incr_eq _ (by omega)
    · rw [if_neg (fun h => hc ⟨h.1, h.2.1⟩), if_neg (fun h => hc ⟨h.1.symm, h.2.symm⟩), hold]
      rfl
  · intro k w hk hw
    rw [hK] at hk
    rw [hV] at hw
    have key : nKW s.docs (maskAdd M d n) (set2 s.Z d n t) k w =
        nKW s.docs M s.Z k w + if get2 s.docs d n = w ∧ t = k then 1 else 0 :=
      cnt_add_mask s.docs M s.Z (set2 s.Z d n t) (fun a b c => get2 s.docs a b = w ∧ c = k)
        d n t hd hn hM hZt hZo
    have hle : nKW s.docs (maskAdd M d n) (set2 s.Z d n t) k w ≤ (tokens s.docs).card :=
      cnt_le _ _
    rw [hCKW, hZ, hdocs, get2_upd2, key]
    have hrow := hA.rowCKW t ht
    have hold := hA.ckw k w hk hw
    by_cases hc : k = t ∧ w = get2 s.docs d n
    · obtain ⟨rfl, rfl⟩ := hc
      rw [if_pos ⟨rfl, rfl, by rw [hA.lenCKW]; exact ht, by rw [hrow]; exact hterm⟩,
        if_pos ⟨rfl, rfl⟩, hold]
      rw [key, if_pos ⟨rfl, rfl⟩] at hle
      exact incr_eq _ (by omega)
    · rw [if_neg (fun h => hc ⟨h.1, h.2.1⟩), if_neg (fun h => hc ⟨h.2.symm, h.1.symm⟩), hold]
      rfl
  · intro k hk
    rw [hK] at hk
    have key : nK s.docs (maskAdd M d n) (set2 s.Z d n t) k =
        nK s.docs M s.Z k + if t = k then 1 else 0 :=
      cnt_add_mask s.docs M s.Z (set2 s.Z d n t) (fun _ _ c => c = k)
        d n t hd hn hM hZt hZo
    have hle : nK s.docs (maskAdd M d n) (set2 s.Z d n t) k ≤ (tokens s.docs).card :=
      cnt_le _ _
    rw [hCK, hZ, hdocs, get1_upd1, key]
    have hold := hA.ck k hk
    by_cases hc : k = t
    · subst hc
      rw [if_pos ⟨rfl, by rw [hA.lenCK]; exact ht⟩, if_pos rfl, hold]
      rw [key, if_pos rfl] at hle
      exact incr_eq _ (by omega)
    · rw [if_neg (fun h => hc h.1), if_neg (fun h => hc h.symm), hold]
      rfl

theorem agg_del (M : Nat → Nat → Bool) (s s' : LDA) (d n : Nat)
    (hA : Agg M s) (hsize : (tokens s.docs).card < SIZE_MOD)
    (hd : d < s.docs.length) (hn : n < (s.docs.getD d []).length)
    (hterm : get2 s.docs d n < s.V)
    (hM : M d n = true)
    (hdocs : s'.docs = s.docs) (hK : s'.K = s.K) (hV : s'.V = s.V)
    (hZ : s'.Z = s.Z)
    (hCDK : s'.CDK = upd2 decr s.CDK d (get2 s.Z d n))
    (hCKW : s'.CKW = upd2 decr s.CKW (get2 s.Z d n) (get2 s.docs d n))
    (hCK : s'.CK = upd1 decr s.CK (get2 s.Z d n)) :
    Agg (maskDel M d n) s' := by
  have ht : get2 s.Z d n < s.K := hA.zlt d n hd hn hM
  constructor
  · rw [hZ, hdocs]; exact hA.lenZ
  · rw [hCDK, hdocs, length_upd2]; exact hA.lenCDK
  · intro d' hd'
    rw [hCDK, hK, row_length_upd2]
    exact hA.rowCDK d' (by rw [← hdocs]; exact hd')
  · rw [hCKW, hK, length_upd2]; exact hA.lenCKW
  · intro k hk
    rw [hCKW, hV, row_length_upd2]
    exact hA.rowCKW k (by rw [← hK]; exact hk)
  · rw [hCK, hK, length_upd1]; exact hA.lenCK
  · intro d' n' hd' hn' hm
    rw [hdocs] at hd' hn'
    rw [hZ, hK]
    apply hA.zlt d' n' hd' hn'
    simp only [maskDel, Bool.and_eq_true] at hm
    exact hm.1
  · intro d' k hd' hk
    rw [hdocs] at hd'
    rw [hK] at hk
    have key : nDK s.docs M s.Z d' k =
        nDK s.docs (maskDel M d n) s.Z d' k + if d = d' ∧ get2 s.Z d n = k then 1 else 0 :=
      cnt_del_mask s.docs M s.Z (fun a _ c => a = d' ∧ c = k) d n hd hn hM
    have hle : nDK s.docs M s.Z d' k ≤ (tokens s.docs).card := cnt_le _ _
    rw [hCDK, hZ, hdocs, get2_upd2]
    have hrow := hA.rowCDK d hd
    have hold := hA.cdk d' k hd' hk
    by_cases hc : d' = d ∧ k = get2 s.Z d n
    · obtain ⟨rfl, rfl⟩ := hc
      rw [if_pos ⟨rfl, rfl, by rw [hA.lenCDK]; exact hd, by rw [hrow]; exact ht⟩, hold]
      rw [if_pos ⟨rfl, rfl⟩] at key
      rw [decr_eq _ (by omega) (by omega)]
      omega
    · rw [if_neg (fun h => hc ⟨h.1, h.2.1⟩), hold, key,
        if_neg (fun h => hc ⟨h.1.symm, h.2.symm⟩)]
      rfl
  · intro k w hk hw
    rw [hK] at hk
    rw [hV] at hw
    have key : nKW s.docs M s.Z k w =
        nKW s.docs (maskDel M d n) s.Z k w +
          if get2 s.docs d n = w ∧ get2 s.Z d n = k then 1 else 0 :=
      cnt_del_mask s.docs M s.Z (fun a b c => get2 s.docs a b = w ∧ c = k) d n hd hn hM
    have hle : nKW s.docs M s.Z k w ≤ (tokens s.docs).card := cnt_le _ _
    rw [hCKW, hZ, hdocs, get2_upd2]
    have hrow := hA.rowCKW _ ht
    have hold := hA.ckw k w hk hw
    by_cases hc : k = get2 s.Z d n ∧ w = get2 s.docs d n
    · obtain ⟨rfl, rfl⟩ := hc
      rw [if_pos ⟨rfl, rfl, by rw [hA.lenCKW]; exact ht, by rw [hrow]; exact hterm⟩, hold]
      rw [if_pos ⟨rfl, rfl⟩] at key
      rw [decr_eq _ (by omega) (by omega)]
      omega
    · rw [if_neg (fun h => hc ⟨h.1, h.2.1⟩), hold, key,
        if_neg (fun h => hc ⟨h.2.symm, h.1.symm⟩)]
      rfl
  · intro k hk
    rw [hK] at hk
    have key : nK s.docs M s.Z k =
        nK s.docs (maskDel M d n) s.Z k + if get2 s.Z d n = k then 1 else 0 :=
      cnt_del_mask s.docs M s.Z (fun _ _ c => c = k) d n hd hn hM
    have hle : nK s.docs M s.Z k ≤ (tokens s.docs).card := cnt_le _ _
    rw [hCK, hZ, hdocs, get1_upd1]
    have hold := hA.ck k hk
    by_cases hc : k = get2 s.Z d n
    · subst hc
      rw [if_pos ⟨rfl, by rw [hA.lenCK]; exact ht⟩, hold]
      rw [if_pos rfl] at key
      rw [decr_eq _ (by omega) (by omega)]
      omega
    · rw [if_neg (fun h => hc h.1), hold, key, if_neg (fun h => hc h.symm)]
      rfl

theorem agg_congr (M M' : Nat → Nat → Bool) (s : LDA) (hA : Agg M s)
    (h : ∀ d n, d < s.docs.length → n < (s.docs.getD d []).length → M' d n = M d n) :
    Agg M' s := by
  refine ⟨hA.lenZ, hA.lenCDK, hA.rowCDK, hA.lenCKW, hA.rowCKW, hA.lenCK, ?_, ?_, ?_, ?_⟩
  · intro d n hd hn hm
    exact hA.zlt d n hd hn (by rw [← h d n hd hn]; exact hm)
  · intro d k hd hk
    rw [hA.cdk d k hd hk]
    exact cnt_congr _ _ _ (fun d' n' hd' hn' => by rw [h d' n' hd' hn'])
  · intro k w hk hw
    rw [hA.ckw k w hk hw]
    exact cnt_congr _ _ _ (fun d' n' hd' hn' => by rw [h d' n' hd' hn'])
  · intro k hk
    rw [hA.ck k hk]
    exact cnt_congr _ _ _ (fun d' n' hd' hn' => by rw [h d' n' hd' hn'])

/-! ## Training keeps the invariant -/

theorem valid_advance (g : Generator) (h : g.Valid) : g.advance.Valid := h

theorem mult_lt (g : Generator) (h : g.Valid) (w : List (Option ℚ)) (K : Nat)
    (hK : 1 ≤ K) (hw : w.length = K) : g.mult w < K := by
  have hne : w ≠ [] := by
    intro e
    rw [e] at hw
    simp at hw
    omega
  have := h.2 g.pos w hne
  rw [hw] at this
  exact this

theorem uniform_lt (g : Generator) (h : g.Valid) (K : Nat) (hK : 1 ≤ K) :
    g.uniform_int 0 (K - 1) < K := by
  have := (h.1 g.pos 0 (K - 1) (Nat.zero_le _)).2
  unfold Generator.uniform_int
  omega

theorem length_prob_vector (d : Nat) (s : LDA) (n : Nat) :
    (prob_vector d s n).length = s.K := by
  simp [prob_vector, scores, retract]

/-- The state after the decrements tallies every token but the current one. -/
theorem retract_agg (s : LDA) (d n : Nat) (hI : Inv s)
    (hd : d < s.docs.length) (hn : n < (s.docs.getD d []).length) :
    Agg (maskDel maskAll d n) (retract d s n) :=
  agg_del maskAll s (retract d s n) d n hI.agg hI.wf.size hd hn (hI.wf.terms d n hd hn) rfl
    rfl rfl rfl rfl rfl rfl rfl

theorem estimateToken_inv (s : LDA) (d n : Nat) (hI : Inv s)
    (hd : d < s.docs.length) (hn : n < (s.docs.getD d []).length) :
    Inv (estimateToken d s n) := by
  have h1 := retract_agg s d n hI hd hn
  have ht : (retract d s n).generator.mult (prob_vector d s n) < s.K :=
    mult_lt _ hI.wf.draws _ _ hI.wf.topics (length_prob_vector d s n)
  have h2 : Agg (maskAdd (maskDel maskAll d n) d n) (estimateToken d s n) :=
    agg_add (maskDel maskAll d n) (retract d s n) (estimateToken d s n) d n
      ((retract d s n).generator.mult (prob_vector d s n)) h1 hI.wf.size hd hn
      (hI.wf.terms d n hd hn) (by simp [maskDel]) (by
        show n < (s.Z.getD d []).length
        rw [hI.rowZ d hd]; exact hn) ht rfl rfl rfl rfl rfl rfl rfl
  refine ⟨⟨hI.wf.terms, hI.wf.topics, valid_advance _ hI.wf.draws, hI.wf.size⟩, ?_, ?_, hI.total⟩
  · exact agg_congr _ _ _ h2 (fun d' n' _ _ => by simp [maskAdd, maskDel, maskAll]; tauto)
  · intro d' hd'
    show ((set2 s.Z d n _).getD d' []).length = _
    rw [set2, row_length_upd2]
    exact hI.rowZ d' hd'

theorem estimateToken_docs (s : LDA) (d n : Nat) : (estimateToken d s n).docs = s.docs := rfl

theorem estimateDoc_inv (s : LDA) (d : Nat) (hI : Inv s) (hd : d < s.docs.length) :
    Inv (estimateDoc s d) ∧ (estimateDoc s d).docs = s.docs := by
  unfold estimateDoc
  apply foldl_range_inv (estimateToken d) (fun s' => Inv s' ∧ s'.docs = s.docs)
  · exact ⟨hI, rfl⟩
  · rintro i s' hi ⟨h1, h2⟩
    refine ⟨estimateToken_inv s' d i h1 (by rw [h2]; exact hd) (by rw [h2]; exact hi), ?_⟩
    rw [estimateToken_docs, h2]

theorem estimatePass_inv (s : LDA) (hI : Inv s) :
    Inv (estimatePass s) ∧ (estimatePass s).docs = s.docs := by
  unfold estimatePass
  apply foldl_range_inv estimateDoc (fun s' => Inv s' ∧ s'.docs = s.docs)
  · exact ⟨hI, rfl⟩
  · rintro i s' hi ⟨h1, h2⟩
    have := estimateDoc_inv s' i h1 (by rw [h2]; exact hi)
    exact ⟨this.1, by rw [this.2, h2]⟩

theorem estimate_inv (s : LDA) (iters : Nat) (hI : Inv s) : Inv (estimate s iters) := by
  unfold estimate
  apply foldl_range_inv (fun s _ => estimatePass s) Inv
  · exact hI
  · intro i s' _ h
    exact (estimatePass_inv s' h).1

/-! ## Construction establishes the invariant -/

theorem card_tokens_sum (docs : List (List Nat)) :
    (tokens docs).card = ∑ d ∈ Finset.range docs.length, (docs.getD d []).length := by
  unfold tokens
  rw [Finset.card_biUnion]
  · apply Finset.sum_congr rfl
    intro d _
    rw [Finset.card_image_of_injective _ (fun a b h => (Prod.mk.inj h).2), Finset.card_range]
  · intro x _ y _ hxy
    rw [Finset.disjoint_left]
    intro p hp hq
    simp only [Finset.mem_image, Finset.mem_range] at hp hq
    obtain ⟨a, _, rfl⟩ := hp
    obtain ⟨b, _, hb⟩ := hq
    exact hxy (Prod.mk.inj hb).1.symm

theorem sum_range_length (docs : List (List Nat)) :
    ∑ d ∈ Finset.range docs.length, (docs.getD d []).length = numTokens docs := by
  unfold numTokens
  induction docs using List.reverseRecOn with
  | nil => simp
  | append_singleton l a ih =>
    rw [List.length_append, List.length_singleton, Finset.sum_range_succ, List.map_append,
      List.sum_append, ← ih]
    congr 1
    · apply Finset.sum_congr rfl
      intro d hd
      rw [Finset.mem_range] at hd
      rw [List.getD_append _ _ _ _ hd]
    · simp [List.getD_eq_getElem?_getD]

theorem card_tokens (docs : List (List Nat)) : (tokens docs).card = numTokens docs := by
  rw [card_tokens_sum, sum_range_length]

theorem cnt_doc (docs : List (List Nat)) (d : Nat) (hd : d < docs.length) :
    cnt docs (fun d' _ => d' = d) = (docs.getD d []).length := by
  unfold cnt
  have : ((tokens docs).filter fun p => p.1 = d) =
      (Finset.range (docs.getD d []).length).image (Prod.mk d) := by
    ext ⟨a, b⟩
    simp only [Finset.mem_filter, mem_tokens, Finset.mem_image, Finset.mem_range,
      Prod.mk.injEq]
    constructor
    · rintro ⟨⟨_, h2⟩, rfl⟩
      exact ⟨b, h2, rfl, rfl⟩
    · rintro ⟨c, hc, rfl, rfl⟩
      exact ⟨⟨hd, hc⟩, rfl⟩
  rw [this, Finset.card_image_of_injective _ (fun a b h => (Prod.mk.inj h).2), Finset.card_range]

theorem get2_lt_of_termsBelow (docs : List (List Nat)) (V : Nat) (h : TermsBelow docs V)
    (d n : Nat) (hd : d < docs.length) (hn : n < (docs.getD d []).length) :
    get2 docs d n < V := by
  unfold get2
  have h1 : docs.getD d [] ∈ docs := by
    rw [List.getD_eq_getElem _ _ hd]
    exact List.getElem_mem _
  have h2 : (docs.getD d []).getD n 0 ∈ docs.getD d [] := by
    rw [List.getD_eq_getElem _ _ hn]
    exact List.getElem_mem _
  exact h _ h1 _ h2

theorem cnt_false (docs : List (List Nat)) (P : Nat → Nat → Prop) [∀ d n, Decidable (P d n)]
    (h : ∀ d n, ¬ P d n) : cnt docs P = 0 := by
  unfold cnt
  rw [Finset.card_eq_zero, Finset.filter_eq_empty_iff]
  intro p _
  exact h p.1 p.2

theorem get2_replicate (a b i j : Nat) :
    get2 (List.replicate a (List.replicate b 0)) i j = 0 := by
  unfold get2
  simp only [List.getD_eq_getElem?_getD, List.getElem?_replicate]
  by_cases hi : i < a
  · rw [if_pos hi]
    simp only [Option.getD_some, List.getElem?_replicate]
    by_cases hj : j < b
    · rw [if_pos hj]; rfl
    · rw [if_neg hj]; rfl
  · rw [if_neg hi]; rfl

theorem get1_replicate (a i : Nat) : get1 (List.replicate a 0) i = 0 := by
  unfold get1
  simp only [List.getD_eq_getElem?_getD, List.getElem?_replicate]
  by_cases hi : i < a
  · rw [if_pos hi]; rfl
  · rw [if_neg hi]; rfl

theorem getD_replicate_row (a b i : Nat) (hi : i < a) :
    ((List.replicate a (List.replicate b 0)).getD i []).length = b := by
  simp [List.getD_eq_getElem?_getD, List.getElem?_replicate, hi]

theorem get2_set_row (m : List (List Nat)) (i : Nat) (x : List Nat) (i' j' : Nat)
    (h : i' ≠ i) : get2 (m.set i x) i' j' = get2 m i' j' := by
  unfold get2
  rw [getD_set_nat, if_neg (fun hh => h hh.1)]

theorem sum_prefix_le (docs : List (List Nat)) (d : Nat) (hd : d ≤ docs.length) :
    ∑ d' ∈ Finset.range d, (docs.getD d' []).length ≤ (tokens docs).card := by
  rw [card_tokens_sum]
  apply Finset.sum_le_sum_of_subset
  intro x hx
  rw [Finset.mem_range] at hx ⊢
  omega

theorem initDoc_alloc (s : LDA) (d : Nat) (hI : InitInv d 0 d s) (hd : d < s.docs.length) :
    InitInv d 0 (d + 1)
      { s with
        Z := s.Z.set d (List.replicate (s.docs.getD d []).length 0)
        total_num_of_words :=
          (s.total_num_of_words + (s.docs.getD d []).length) % SIZE_MOD } := by
  have hmask : ∀ d' n', maskInit d 0 d' n' = true → d' ≠ d := by
    intro d' n' h
    simp only [maskInit, decide_eq_true_eq] at h
    omega
  have hZ : ∀ d' n', maskInit d 0 d' n' = true →
      get2 (s.Z.set d (List.replicate (s.docs.getD d []).length 0)) d' n' = get2 s.Z d' n' :=
    fun d' n' h => get2_set_row _ _ _ _ _ (hmask d' n' h)
  refine ⟨⟨hI.wf.terms, hI.wf.topics, hI.wf.draws, hI.wf.size⟩, ?_, ?_, ?_⟩
  · refine ⟨?_, hI.agg.lenCDK, hI.agg.rowCDK, hI.agg.lenCKW, hI.agg.rowCKW, hI.agg.lenCK,
      ?_, ?_, ?_, ?_⟩
    · show (s.Z.set d _).length = s.docs.length
      rw [List.length_set]; exact hI.agg.lenZ
    · intro d' n' hd' hn' hm
      show get2 (s.Z.set d _) d' n' < s.K
      rw [hZ d' n' hm]
      exact hI.agg.zlt d' n' hd' hn' hm
    · intro d' k hd' hk
      show get2 s.CDK d' k = nDK s.docs (maskInit d 0) (s.Z.set d _) d' k
      rw [hI.agg.cdk d' k hd' hk]
      apply cnt_congr
      intro a b _ _
      constructor
      · rintro ⟨h1, h2, h3⟩
        exact ⟨h1, h2, by rw [hZ a b h1]; exact h3⟩
      · rintro ⟨h1, h2, h3⟩
        exact ⟨h1, h2, by rw [← hZ a b h1]; exact h3⟩
    · intro k w hk hw
      show get2 s.CKW k w = nKW s.docs (maskInit d 0) (s.Z.set d _) k w
      rw [hI.agg.ckw k w hk hw]
      apply cnt_congr
      intro a b _ _
      constructor
      · rintro ⟨h1, h2, h3⟩
        exact ⟨h1, h2, by rw [hZ a b h1]; exact h3⟩
      · rintro ⟨h1, h2, h3⟩
        exact ⟨h1, h2, by rw [← hZ a b h1]; exact h3⟩
    · intro k hk
      show get1 s.CK k = nK s.docs (maskInit d 0) (s.Z.set d _) k
      rw [hI.agg.ck k hk]
      apply cnt_congr
      intro a b _ _
      constructor
      · rintro ⟨h1, h3⟩
        exact ⟨h1, by rw [hZ a b h1]; exact h3⟩
      · rintro ⟨h1, h3⟩
        exact ⟨h1, by rw [← hZ a b h1]; exact h3⟩
  · intro d' hd'
    show ((s.Z.set d _).getD d' []).length = (s.docs.getD d' []).length
    rw [getD_set_nat]
    by_cases h : d' = d
    · subst h
      rw [if_pos ⟨rfl, by rw [hI.agg.lenZ]; exact hd⟩, List.length_replicate]
    · rw [if_neg (fun hh => h hh.1)]
      exact hI.rowZ d' (by omega)
  · show (s.total_num_of_words + (s.docs.getD d []).length) % SIZE_MOD = _
    rw [Finset.sum_range_succ, ← hI.total]
    apply Nat.mod_eq_of_lt
    have h1 := sum_prefix_le s.docs (d + 1) hd
    rw [Finset.sum_range_succ, ← hI.total] at h1
    exact lt_of_le_of_lt h1 hI.wf.size

theorem initToken_inv (s : LDA) (d n : Nat) (hI : InitInv d n (d + 1) s)
    (hd : d < s.docs.length) (hn : n < (s.docs.getD d []).length) :
    InitInv d (n + 1) (d + 1) (initToken d s n) := by
  have ht : s.generator.uniform_int 0 (s.K - 1) < s.K :=
    uniform_lt _ hI.wf.draws _ hI.wf.topics
  have h2 : Agg (maskAdd (maskInit d n) d n) (initToken d s n) :=
    agg_add (maskInit d n) s (initToken d s n) d n (s.generator.uniform_int 0 (s.K - 1))
      hI.agg hI.wf.size hd hn (hI.wf.terms d n hd hn) (by simp [maskInit])
      (by rw [hI.rowZ d (Nat.lt_succ_self d)]; exact hn) ht rfl rfl rfl rfl rfl rfl rfl
  refine ⟨⟨hI.wf.terms, hI.wf.topics, valid_advance _ hI.wf.draws, hI.wf.size⟩, ?_, ?_, hI.total⟩
  · apply agg_congr _ _ _ h2
    intro d' n' _ _
    rw [Bool.eq_iff_iff]
    simp only [maskAdd, maskInit, Bool.or_eq_true, Bool.and_eq_true, decide_eq_true_eq,
      beq_iff_eq]
    omega
  · intro d' hd'
    show ((set2 s.Z d n _).getD d' []).length = _
    rw [set2, row_length_upd2]
    exact hI.rowZ d' hd'

theorem initToken_docs (s : LDA) (d n : Nat) : (initToken d s n).docs = s.docs := rfl

theorem initDoc_inv (s : LDA) (d : Nat) (hI : InitInv d 0 d s) (hd : d < s.docs.length) :
    InitInv (d + 1) 0 (d + 1) (initDoc s d) ∧ (initDoc s d).docs = s.docs := by
  have key := foldl_range_ind (initToken d)
    (fun n s' => InitInv d n (d + 1) s' ∧ s'.docs = s.docs) (s.docs.getD d []).length
    { s with
      Z := s.Z.set d (List.replicate (s.docs.getD d []).length 0)
      total_num_of_words :=
        (s.total_num_of_words + (s.docs.getD d []).length) % SIZE_MOD }
    ⟨initDoc_alloc s d hI hd, rfl⟩
    (by
      rintro i s' hi ⟨h1, h2⟩
      exact ⟨initToken_inv s' d i h1 (by rw [h2]; exact hd) (by rw [h2]; exact hi),
        by rw [initToken_docs, h2]⟩)
  obtain ⟨h1, h2⟩ := key
  refine ⟨⟨h1.wf, ?_, h1.rowZ, h1.total⟩, h2⟩
  apply agg_congr _ _ _ h1.agg
  intro d' n' _ hn'
  change n' < (((initDoc s d).docs).getD d' []).length at hn'
  have h2' : (initDoc s d).docs = s.docs := h2
  rw [h2'] at hn'
  simp only [maskInit, decide_eq_decide]
  constructor
  · intro h
    rcases h with h | ⟨_, h⟩
    · rcases Nat.lt_succ_iff_lt_or_eq.1 h with h | h
      · exact Or.inl h
      · subst h
        exact Or.inr ⟨rfl, hn'⟩
    · omega
  · intro h
    rcases h with h | ⟨h, _⟩
    · exact Or.inl (by omega)
    · exact Or.inl (by omega)

theorem sameParams_refl (s : LDA) : SameParams s s := ⟨rfl, rfl, rfl, rfl, rfl⟩

theorem sameParams_trans {a b c : LDA} (h1 : SameParams a b) (h2 : SameParams b c) :
    SameParams a c :=
  ⟨h2.1.trans h1.1, h2.2.1.trans h1.2.1, h2.2.2.1.trans h1.2.2.1,
    h2.2.2.2.1.trans h1.2.2.2.1, h2.2.2.2.2.trans h1.2.2.2.2⟩

theorem foldl_sameParams {ι : Type} (f : LDA → ι → LDA) (l : List ι)
    (hf : ∀ s i, SameParams s (f s i)) (s : LDA) : SameParams s (l.foldl f s) := by
  induction l generalizing s with
  | nil => exact sameParams_refl s
  | cons a l ih => exact sameParams_trans (hf s a) (ih (f s a))

theorem initToken_sameParams (d : Nat) (s : LDA) (n : Nat) : SameParams s (initToken d s n) :=
  ⟨rfl, rfl, rfl, rfl, rfl⟩

theorem initDoc_sameParams (s : LDA) (d : Nat) : SameParams s (initDoc s d) := by
  unfold initDoc
  exact sameParams_trans (b := { s with
      Z := s.Z.set d (List.replicate (s.docs.getD d []).length 0)
      total_num_of_words :=
        (s.total_num_of_words + (s.docs.getD d []).length) % SIZE_MOD })
    ⟨rfl, rfl, rfl, rfl, rfl⟩ (foldl_sameParams _ _ (initToken_sameParams d) _)

theorem init_sameParams (s : LDA) : SameParams s (init s) :=
  foldl_sameParams _ _ initDoc_sameParams _

theorem construct_params (docs : List (List Nat)) (V K : Nat) (alpha beta : ℚ)
    (g : Generator) :
    (LDA.construct docs V K alpha beta g).docs = docs ∧
    (LDA.construct docs V K alpha beta g).K = K ∧
    (LDA.construct docs V K alpha beta g).V = V ∧
    (LDA.construct docs V K alpha beta g).alpha = alpha ∧
    (LDA.construct docs V K alpha beta g).beta = beta :=
  init_sameParams _

theorem estimateToken_sameParams (d : Nat) (s : LDA) (n : Nat) :
    SameParams s (estimateToken d s n) :=
  ⟨rfl, rfl, rfl, rfl, rfl⟩

theorem estimateDoc_sameParams (s : LDA) (d : Nat) : SameParams s (estimateDoc s d) :=
  foldl_sameParams _ _ (estimateToken_sameParams d) _

theorem estimatePass_sameParams (s : LDA) : SameParams s (estimatePass s) :=
  foldl_sameParams _ _ estimateDoc_sameParams _

theorem estimate_sameParams (s : LDA) (iters : Nat) : SameParams s (estimate s iters) :=
  foldl_sameParams _ _ (fun s _ => estimatePass_sameParams s) _

theorem init_inv (s : LDA) (hI : InitInv 0 0 0 s) : Inv (init s) := by
  have key := foldl_range_ind initDoc (fun d s' => InitInv d 0 d s' ∧ s'.docs = s.docs)
    s.docs.length s ⟨hI, rfl⟩
    (by
      rintro i s' hi ⟨h1, h2⟩
      have := initDoc_inv s' i h1 (by rw [h2]; exact hi)
      exact ⟨this.1, by rw [this.2, h2]⟩)
  obtain ⟨h1, h2⟩ := key
  have h2' : (init s).docs = s.docs := h2
  have h1' : InitInv s.docs.length 0 s.docs.length (init s) := h1
  refine ⟨h1'.wf, ?_, ?_, ?_⟩
  · apply agg_congr _ _ _ h1'.agg
    intro d n hd _
    rw [h2'] at hd
    simp [maskAll, maskInit, hd]
  · intro d hd
    exact h1'.rowZ d (by rw [← h2']; exact hd)
  · rw [h1'.total, card_tokens_sum, h2']

theorem construct_inv (docs : List (List Nat)) (V K : Nat) (alpha beta : ℚ) (g : Generator)
    (hterms : TermsBelow docs V) (hK : 1 ≤ K) (hg : g.Valid) (hsize : numTokens docs < 2 ^ 64) :
    Inv (LDA.construct docs V K alpha beta g) := by
  apply init_inv
  refine ⟨⟨get2_lt_of_termsBelow docs V hterms, hK, hg, ?_⟩, ?_, ?_, ?_⟩
  · show (tokens docs).card < SIZE_MOD
    rw [card_tokens]; exact hsize
  · refine ⟨?_, ?_, ?_, ?_, ?_, ?_, ?_, ?_, ?_, ?_⟩
    · exact List.length_replicate _ _
    · exact List.length_replicate _ _
    · intro d hd
      exact getD_replicate_row _ _ _ hd
    · exact List.length_replicate _ _
    · intro k hk
      exact getD_replicate_row _ _ _ hk
    · exact List.length_replicate _ _
    · intro d n _ _ hm
      simp [maskInit] at hm
    · intro d k _ _
      show get2 (List.replicate _ (List.replicate _ 0)) d k = _
      rw [get2_replicate]
      exact (cnt_false _ _ (fun a b h => by simp [maskInit] at h)).symm
    · intro k w _ _
      show get2 (List.replicate _ (List.replicate _ 0)) k w = _
      rw [get2_replicate]
      exact (cnt_false _ _ (fun a b h => by simp [maskInit] at h)).symm
    · intro k _
      show get1 (List.replicate _ 0) k = _
      rw [get1_replicate]
      exact (cnt_false _ _ (fun a b h => by simp [maskInit] at h)).symm
  · intro d hd
    exact absurd hd (Nat.not_lt_zero d)
  · simp

theorem reachable_inv (s : LDA) (h : Reachable s) : Inv s := by
  induction h with
  | construct docs V K alpha beta g h1 h2 h3 h4 => exact construct_inv docs V K alpha beta g h1 h2 h3 h4
  | update s d n _ hd hn ih => exact estimateToken_inv s d n ih hd hn

theorem reachable_estimateDoc (s : LDA) (d : Nat) (h : Reachable s) (hd : d < s.docs.length) :
    Reachable (estimateDoc s d) ∧ (estimateDoc s d).docs = s.docs := by
  unfold estimateDoc
  apply foldl_range_inv (estimateToken d) (fun s' => Reachable s' ∧ s'.docs = s.docs)
  · exact ⟨h, rfl⟩
  · rintro i s' hi ⟨h1, h2⟩
    exact ⟨Reachable.update s' d i h1 (by rw [h2]; exact hd) (by rw [h2]; exact hi),
      by rw [estimateToken_docs, h2]⟩

theorem reachable_estimatePass (s : LDA) (h : Reachable s) :
    Reachable (estimatePass s) := by
  unfold estimatePass
  have := foldl_range_inv estimateDoc (fun s' => Reachable s' ∧ s'.docs = s.docs)
    s.docs.length s ⟨h, rfl⟩
    (by
      rintro i s' hi ⟨h1, h2⟩
      have := reachable_estimateDoc s' i h1 (by rw [h2]; exact hi)
      exact ⟨this.1, by rw [this.2, h2]⟩)
  exact this.1

theorem reachable_estimate (s : LDA) (iters : Nat) (h : Reachable s) :
    Reachable (estimate s iters) := by
  unfold estimate
  exact foldl_range_inv (fun s _ => estimatePass s) Reachable iters s h
    (fun _ s' _ h' => reachable_estimatePass s' h')

/-! ## Count consistency -/

theorem cnt_fiber (docs : List (List Nat)) (P : Nat → Nat → Prop) [∀ d n, Decidable (P d n)]
    (f : Nat → Nat → Nat) (m : Nat)
    (H : ∀ d n, d < docs.length → n < (docs.getD d []).length → P d n → f d n < m) :
    cnt docs P = ∑ b ∈ Finset.range m, cnt docs (fun d n => P d n ∧ f d n = b) := by
  unfold cnt
  rw [Finset.card_eq_sum_card_fiberwise (f := fun p : Nat × Nat => f p.1 p.2)
    (t := Finset.range m)]
  · apply Finset.sum_congr rfl
    intro b _
    rw [Finset.filter_filter]
  · rintro ⟨d, n⟩ hp
    rw [Finset.mem_filter, mem_tokens] at hp
    rw [Finset.mem_range]
    exact H d n hp.1.1 hp.1.2 hp.2

theorem inv_row_sum (s : LDA) (hI : Inv s) (d : Nat) (hd : d < s.docs.length) :
    ∑ k ∈ Finset.range s.K, get2 s.CDK d k = (s.docs.getD d []).length := by
  rw [← cnt_doc s.docs d hd,
    cnt_fiber s.docs (fun d' _ => d' = d) (fun a b => get2 s.Z a b) s.K
      (fun a b ha hb _ => hI.agg.zlt a b ha hb rfl)]
  apply Finset.sum_congr rfl
  intro k hk
  rw [Finset.mem_range] at hk
  rw [hI.agg.cdk d k hd hk]
  exact cnt_congr _ _ _ (fun a b _ _ => by simp [maskAll])

theorem inv_ck_ckw (s : LDA) (hI : Inv s) (k : Nat) (hk : k < s.K) :
    get1 s.CK k = ∑ w ∈ Finset.range s.V, get2 s.CKW k w := by
  rw [hI.agg.ck k hk]
  unfold nK
  rw [cnt_fiber s.docs _ (fun a b => get2 s.docs a b) s.V
      (fun a b ha hb _ => hI.wf.terms a b ha hb)]
  apply Finset.sum_congr rfl
  intro w hw
  rw [Finset.mem_range] at hw
  rw [hI.agg.ckw k w hk hw]
  exact cnt_congr _ _ _ (fun a b _ _ => by simp [maskAll]; tauto)

theorem inv_ck_cdk (s : LDA) (hI : Inv s) (k : Nat) (hk : k < s.K) :
    get1 s.CK k = ∑ d ∈ Finset.range s.docs.length, get2 s.CDK d k := by
  rw [hI.agg.ck k hk]
  unfold nK
  rw [cnt_fiber s.docs _ (fun a _ => a) s.docs.length (fun a b ha _ _ => ha)]
  apply Finset.sum_congr rfl
  intro d hd
  rw [Finset.mem_range] at hd
  rw [hI.agg.cdk d k hd hk]
  exact cnt_congr _ _ _ (fun a b _ _ => by simp [maskAll]; tauto)

theorem estimate_construct_params (docs : List (List Nat)) (V K : Nat) (alpha beta : ℚ)
    (g : Generator) (iters : Nat) :
    (estimate (LDA.construct docs V K alpha beta g) iters).docs = docs ∧
    (estimate (LDA.construct docs V K alpha beta g) iters).K = K ∧
    (estimate (LDA.construct docs V K alpha beta g) iters).V = V ∧
    (estimate (LDA.construct docs V K alpha beta g) iters).alpha = alpha ∧
    (estimate (LDA.construct docs V K alpha beta g) iters).beta = beta := by
  obtain ⟨a1, a2, a3, a4, a5⟩ := construct_params docs V K alpha beta g
  obtain ⟨b1, b2, b3, b4, b5⟩ :=
    estimate_sameParams (LDA.construct docs V K alpha beta g) iters
  exact ⟨b1.trans a1, b2.trans a2, b3.trans a3, b4.trans a4, b5.trans a5⟩

/-- C1. Count consistency: in the state right after construction and after
every full training pass (`estimate` with any number of iterations), each row
of `CDK` sums to the length of its document, and `CK[k]` is both the sum of row
`k` of `CKW` and the sum of column `k` of `CDK`.  The corpus is any
`vector<vector<size_t>>` (fewer than `2 ^ 64` tokens) with term ids below `V`. -/
theorem count_consistency (docs : List (List Nat)) (V K : Nat) (alpha beta : ℚ)
    (g : Generator) (num_iterations : Nat)
    (hterms : TermsBelow docs V) (hK : 1 ≤ K) (hg : g.Valid)
    (hsize : numTokens docs < 2 ^ 64) :
    (∀ d, d < docs.length →
      ∑ k ∈ Finset.range K,
        get2 (estimate (LDA.construct docs V K alpha beta g) num_iterations).CDK d k =
        (docs.getD d []).length) ∧
    (∀ k, k < K →
      get1 (estimate (LDA.construct docs V K alpha beta g) num_iterations).CK k =
        ∑ w ∈ Finset.range V,
          get2 (estimate (LDA.construct docs V K alpha beta g) num_iterations).CKW k w ∧
      get1 (estimate (LDA.construct docs V K alpha beta g) num_iterations).CK k =
        ∑ d ∈ Finset.range docs.length,
          get2 (estimate (LDA.construct docs V K alpha beta g) num_iterations).CDK d k) := by
  have hI := estimate_inv _ num_iterations
    (construct_inv docs V K alpha beta g hterms hK hg hsize)
  obtain ⟨hdocs, hKe, hVe, -, -⟩ :=
    estimate_construct_params docs V K alpha beta g num_iterations
  constructor
  · intro d hd
    have := inv_row_sum _ hI d (by rw [hdocs]; exact hd)
    rw [hKe, hdocs] at this
    exact this
  · intro k hk
    have h1 := inv_ck_ckw _ hI k (by rw [hKe]; exact hk)
    have h2 := inv_ck_cdk _ hI k (by rw [hKe]; exact hk)
    rw [hVe] at h1
    rw [hdocs] at h2
    exact ⟨h1, h2⟩

theorem cyclicGen_valid : cyclicGen.Valid := by
  constructor
  · intro i lo hi h
    show lo ≤ lo + i % (hi - lo + 1) ∧ lo + i % (hi - lo + 1) ≤ hi
    have := Nat.mod_lt i (show 0 < hi - lo + 1 by omega)
    omega
  · intro i w hw
    show i % w.length < w.length
    exact Nat.mod_lt _ (List.length_pos.2 hw)

theorem scenario_terms : TermsBelow scenarioDocs 3 := by
  unfold TermsBelow scenarioDocs
  decide

theorem scenario_size : numTokens scenarioDocs < 2 ^ 64 := by
  unfold numTokens scenarioDocs
  norm_num

theorem scenario_reachable : Reachable scenarioEngine :=
  Reachable.construct scenarioDocs 3 2 (1 / 10) (1 / 10) cyclicGen scenario_terms
    (by decide) cyclicGen_valid scenario_size

/-- Witness of C1: the scenario corpus, 50 training passes. -/
theorem count_consistency_witness :
    (∀ d, d < scenarioDocs.length →
      ∑ k ∈ Finset.range 2, get2 (estimate scenarioEngine 50).CDK d k =
        (scenarioDocs.getD d []).length) ∧
    (∀ k, k < 2 →
      get1 (estimate scenarioEngine 50).CK k =
        ∑ w ∈ Finset.range 3, get2 (estimate scenarioEngine 50).CKW k w ∧
      get1 (estimate scenarioEngine 50).CK k =
        ∑ d ∈ Finset.range scenarioDocs.length, get2 (estimate scenarioEngine 50).CDK d k) :=
  count_consistency scenarioDocs 3 2 (1 / 10) (1 / 10) cyclicGen 50 scenario_terms
    (by decide) cyclicGen_valid scenario_size

/-! ## The tables are the aggregates of `Z` -/

theorem nDK_range (docs Z : List (List Nat)) (d k : Nat) (hd : d < docs.length) :
    nDK docs maskAll Z d k =
      ((Finset.range (docs.getD d []).length).filter fun n => get2 Z d n = k).card := by
  unfold nDK cnt
  have : ((tokens docs).filter fun p => maskAll p.1 p.2 = true ∧ p.1 = d ∧ get2 Z p.1 p.2 = k) =
      ((Finset.range (docs.getD d []).length).filter fun n => get2 Z d n = k).image
        (Prod.mk d) := by
    ext ⟨a, b⟩
    simp only [Finset.mem_filter, mem_tokens, Finset.mem_image, Finset.mem_range,
      Prod.mk.injEq, maskAll, true_and]
    constructor
    · rintro ⟨⟨_, h2⟩, rfl, h3⟩
      exact ⟨b, ⟨h2, h3⟩, rfl, rfl⟩
    · rintro ⟨c, ⟨hc, hk⟩, rfl, rfl⟩
      exact ⟨⟨hd, hc⟩, rfl, hk⟩
  rw [this, Finset.card_image_of_injective _ (fun a b h => (Prod.mk.inj h).2)]

/-- C2. In every state reachable by construction followed by token updates of
`estimate`, `CDK[d][k]` is the number of positions `n` of document `d` with
`Z[d][n] = k`, and `CKW[k][w]` is the number of tokens `(d, n)` of the corpus
with `docs[d][n] = w` and `Z[d][n] = k`. -/
theorem tables_aggregate_Z (s : LDA) (h : Reachable s) :
    (∀ d k, d < s.docs.length → k < s.K →
      get2 s.CDK d k =
        ((Finset.range (s.docs.getD d []).length).filter fun n => get2 s.Z d n = k).card) ∧
    (∀ k w, k < s.K → w < s.V →
      get2 s.CKW k w =
        ((tokens s.docs).filter fun p =>
          get2 s.docs p.1 p.2 = w ∧ get2 s.Z p.1 p.2 = k).card) := by
  have hI := reachable_inv s h
  constructor
  · intro d k hd hk
    rw [hI.agg.cdk d k hd hk, nDK_range _ _ _ _ hd]
  · intro k w hk hw
    rw [hI.agg.ckw k w hk hw]
    exact cnt_congr s.docs
      (fun a b => maskAll a b = true ∧ get2 s.docs a b = w ∧ get2 s.Z a b = k)
      (fun a b => get2 s.docs a b = w ∧ get2 s.Z a b = k)
      (fun a b _ _ => ⟨fun h => h.2, fun h => ⟨rfl, h⟩⟩)

theorem scenario_docs : scenarioEngine.docs = scenarioDocs :=
  (construct_params scenarioDocs 3 2 (1 / 10) (1 / 10) cyclicGen).1

theorem scenario_reachable_update : Reachable (estimateToken 1 scenarioEngine 0) :=
  Reachable.update scenarioEngine 1 0 scenario_reachable
    (by rw [scenario_docs]; decide) (by rw [scenario_docs]; decide)

/-- Witness of C2: the scenario engine after one token update. -/
theorem tables_aggregate_Z_witness :
    Reachable (estimateToken 1 scenarioEngine 0) ∧
    ((∀ d k, d < (estimateToken 1 scenarioEngine 0).docs.length →
        k < (estimateToken 1 scenarioEngine 0).K →
      get2 (estimateToken 1 scenarioEngine 0).CDK d k =
        ((Finset.range ((estimateToken 1 scenarioEngine 0).docs.getD d []).length).filter
          fun n => get2 (estimateToken 1 scenarioEngine 0).Z d n = k).card) ∧
    (∀ k w, k < (estimateToken 1 scenarioEngine 0).K →
        w < (estimateToken 1 scenarioEngine 0).V →
      get2 (estimateToken 1 scenarioEngine 0).CKW k w =
        ((tokens (estimateToken 1 scenarioEngine 0).docs).filter fun p =>
          get2 (estimateToken 1 scenarioEngine 0).docs p.1 p.2 = w ∧
            get2 (estimateToken 1 scenarioEngine 0).Z p.1 p.2 = k).card)) :=
  ⟨scenario_reachable_update, tables_aggregate_Z _ scenario_reachable_update⟩

/-! ## Inference: the stale `topic_indices` -/

set_option maxRecDepth 1000000 in
/-- C3 (fails on the code). `LDA::infer` never writes the sampled topic back to
`topic_indices[d][n]`, so from the second pass on it decrements the counter of
the initial topic again.  On the engine `splitEngine` (`beta = 0`), the batch
`[[1]]` and 2 iterations, with the initial draw `0` and categorical draws on
the only topic of positive weight, the counter `cdk[0][0]` is decremented at
value `0` and wraps to `2 ^ 64 - 1`; the returned row does not sum to `1`.  The
same happens on the scenario engine (`alpha = beta = 1/10`, 50 passes) with the
document `[0, 0, 1]` and 20 iterations when every categorical draw is `1`. -/
theorem infer_row_sum_fails :
    (inferRun splitEngine [[1]] 2 lowGen).topic_indices = [[0]] ∧
    (inferRun splitEngine [[1]] 1 lowGen).cdk = [[0, 1]] ∧
    (inferRun splitEngine [[1]] 2 lowGen).prob_vector = [some 0, some (11 / 10)] ∧
    (inferRun splitEngine [[1]] 2 lowGen).cdk = [[18446744073709551615, 2]] ∧
    infer splitEngine [[1]] 2 lowGen =
      [[some (184467440737095516151 / 12), some (7 / 4)]] ∧
    fsum ((infer splitEngine [[1]] 2 lowGen).getD 0 []) ≠ some 1 ∧
    (inferRun (estimate scenarioEngine 50) [[0, 0, 1]] 20 oneGen).cdk =
      [[18446744073709551559, 60]] ∧
    fsum ((infer (estimate scenarioEngine 50) [[0, 0, 1]] 20 oneGen).getD 0 []) ≠ some 1 := by
  decide!

/-! ## Assignment range -/

theorem entriesBelow_set (m : List (List Nat)) (K i : Nat) (row : List Nat)
    (hm : EntriesBelow m K) (hrow : ∀ z ∈ row, z < K) : EntriesBelow (m.set i row) K := by
  intro r hr z hz
  rcases List.mem_or_eq_of_mem_set hr with h | h
  · exact hm r h z hz
  · subst h
    exact hrow z hz

theorem getD_row_below (m : List (List Nat)) (K i : Nat) (hm : EntriesBelow m K) :
    ∀ z ∈ m.getD i [], z < K := by
  intro z hz
  by_cases hi : i < m.length
  · rw [List.getD_eq_getElem _ _ hi] at hz
    exact hm _ (List.getElem_mem _) z hz
  · rw [List.getD_eq_default _ _ (Nat.le_of_not_lt hi)] at hz
    simp at hz

theorem entriesBelow_set2 (m : List (List Nat)) (K i j x : Nat)
    (hm : EntriesBelow m K) (hx : x < K) : EntriesBelow (set2 m i j x) K := by
  unfold set2 upd2 upd1
  apply entriesBelow_set m K i _ hm
  intro z hz
  rcases List.mem_or_eq_of_mem_set hz with h | h
  · exact getD_row_below m K i hm z h
  · rw [h]; exact hx

theorem entriesBelow_of_get2 (m : List (List Nat)) (K : Nat)
    (h : ∀ d n, d < m.length → n < (m.getD d []).length → get2 m d n < K) :
    EntriesBelow m K := by
  intro row hrow z hz
  obtain ⟨d, hd, rfl⟩ := List.getElem_of_mem hrow
  obtain ⟨n, hn, rfl⟩ := List.getElem_of_mem hz
  have := h d n hd (by rw [List.getD_eq_getElem _ _ hd]; exact hn)
  unfold get2 at this
  rw [List.getD_eq_getElem _ _ hd, List.getD_eq_getElem _ _ hn] at this
  exact this

theorem inv_entriesBelow (s : LDA) (hI : Inv s) : EntriesBelow s.Z s.K := by
  apply entriesBelow_of_get2
  intro d n hd hn
  rw [hI.agg.lenZ] at hd
  rw [hI.rowZ d hd] at hn
  exact hI.agg.zlt d n hd hn rfl

theorem inferReachable_inv (e : LDA) (batch_docs : List (List Nat)) (g : Generator)
    (hK : 1 ≤ e.K) (hg : g.Valid) (st : InferState)
    (h : InferReachable e batch_docs g st) :
    st.self = e ∧ st.local_generator.Valid ∧ EntriesBelow st.topic_indices e.K := by
  induction h with
  | alloc =>
    refine ⟨rfl, hg, ?_⟩
    intro row hrow z hz
    rw [List.eq_of_mem_replicate hrow] at hz
    simp at hz
  | initRow st d _ ih =>
    refine ⟨ih.1, ih.2.1, ?_⟩
    apply entriesBelow_set _ _ _ _ ih.2.2
    intro z hz
    rw [List.eq_of_mem_replicate hz]
    omega
  | initToken st d n _ ih =>
    refine ⟨ih.1, valid_advance _ ih.2.1, ?_⟩
    apply entriesBelow_set2 _ _ _ _ _ ih.2.2
    have := uniform_lt st.local_generator ih.2.1 st.self.K (by rw [ih.1]; exact hK)
    rw [← ih.1]
    exact this
  | token st d n _ ih => exact ⟨ih.1, valid_advance _ ih.2.1, ih.2.2⟩
  | thetaDoc st d _ ih => exact ih

theorem foldl_inferReachable {ι : Type} (e : LDA) (batch_docs : List (List Nat))
    (g : Generator) (f : InferState → ι → InferState) (l : List ι)
    (hf : ∀ st i, InferReachable e batch_docs g st → InferReachable e batch_docs g (f st i))
    (st : InferState) (h : InferReachable e batch_docs g st) :
    InferReachable e batch_docs g (l.foldl f st) := by
  induction l generalizing st with
  | nil => exact h
  | cons a l ih => exact ih (f st a) (hf st a h)

theorem inferRun_reachable (e : LDA) (batch_docs : List (List Nat)) (num_iterations : Nat)
    (g : Generator) : InferReachable e batch_docs g (inferRun e batch_docs num_iterations g) := by
  unfold inferRun inferTheta
  apply foldl_inferReachable _ _ _ _ _ (fun st d h => InferReachable.thetaDoc st d h)
  apply foldl_inferReachable
  · intro st _ h
    unfold inferPass
    apply foldl_inferReachable _ _ _ _ _ _ _ h
    intro st' d h'
    unfold inferDoc
    exact foldl_inferReachable _ _ _ _ _ (fun st'' n h'' => InferReachable.token st'' d n h'') _ h'
  · apply foldl_inferReachable _ _ _ _ _ _ _ InferReachable.alloc
    intro st d h
    unfold inferInitDoc
    exact foldl_inferReachable _ _ _ _ _
      (fun st'' n h'' => InferReachable.initToken st'' d n h'') _ (InferReachable.initRow st d h)

/-- C4. Assignment range: every entry of `Z` is below `K` in every state
reachable by construction followed by token updates (hence after any number of
training iterations), and every entry of `topic_indices` is below `K` in every
program state `LDA::infer` goes through, the state at its return included, for
every `K >= 1` and all draws inside the ranges of their distributions. -/
theorem assignment_range :
    (∀ s, Reachable s → EntriesBelow s.Z s.K) ∧
    (∀ (e : LDA) (batch_docs : List (List Nat)) (g : Generator), 1 ≤ e.K → g.Valid →
      (∀ st, InferReachable e batch_docs g st → EntriesBelow st.topic_indices e.K) ∧
      (∀ num_iterations,
        EntriesBelow (inferRun e batch_docs num_iterations g).topic_indices e.K)) := by
  constructor
  · intro s h
    exact inv_entriesBelow s (reachable_inv s h)
  · intro e batch_docs g hK hg
    constructor
    · intro st h
      exact (inferReachable_inv e batch_docs g hK hg st h).2.2
    · intro n
      exact (inferReachable_inv e batch_docs g hK hg _ (inferRun_reachable e batch_docs n g)).2.2


theorem scenario_K : scenarioEngine.K = 2 :=
  (construct_params scenarioDocs 3 2 (1 / 10) (1 / 10) cyclicGen).2.1

/-- Witness of C4: the scenario engine, and an inference run on `[0, 0, 1]`. -/
theorem assignment_range_witness :
    EntriesBelow scenarioEngine.Z scenarioEngine.K ∧
    EntriesBelow (inferRun scenarioEngine [[0, 0, 1]] 20 cyclicGen).topic_indices
      scenarioEngine.K :=
  ⟨assignment_range.1 scenarioEngine scenario_reachable,
    (assignment_range.2 scenarioEngine [[0, 0, 1]] cyclicGen
      (by rw [scenario_K]; decide) cyclicGen_valid).2 20⟩

/-! ## Inference does not touch the engine -/

theorem inferReachable_self (e : LDA) (batch_docs : List (List Nat)) (g : Generator)
    (st : InferState) (h : InferReachable e batch_docs g st) :
    st.self = e ∧ st.batch_docs = batch_docs := by
  induction h with
  | alloc => exact ⟨rfl, rfl⟩
  | initRow st d _ ih => exact ih
  | initToken st d n _ ih => exact ih
  | token st d n _ ih => exact ih
  | thetaDoc st d _ ih => exact ih

theorem foldl_sim {ι : Type} (f : InferState → ι → InferState) (l : List ι)
    (hf : ∀ a b i, InferSim a b → InferSim (f a i) (f b i)) (a b : InferState)
    (h : InferSim a b) : InferSim (l.foldl f a) (l.foldl f b) := by
  induction l generalizing a b with
  | nil => exact h
  | cons x l ih => exact ih _ _ (hf a b x h)

theorem inferInitRow_sim (a b : InferState) (d : Nat) (h : InferSim a b) :
    InferSim (inferInitRow a d) (inferInitRow b d) := by
  refine ⟨h.K, h.V, h.alpha, h.beta, h.CKW, h.CK, h.batch_docs, h.cdk, h.theta, ?_,
    h.prob_vector, h.local_generator⟩
  show a.topic_indices.set d _ = b.topic_indices.set d _
  rw [h.topic_indices, h.batch_docs]

theorem inferInitToken_sim (d : Nat) (a b : InferState) (n : Nat) (h : InferSim a b) :
    InferSim (inferInitToken d a n) (inferInitToken d b n) := by
  refine ⟨h.K, h.V, h.alpha, h.beta, h.CKW, h.CK, h.batch_docs, ?_, h.theta, ?_,
    h.prob_vector, ?_⟩
  · show upd2 incr a.cdk d _ = upd2 incr b.cdk d _
    rw [h.cdk, h.local_generator, h.K]
  · show set2 a.topic_indices d n _ = set2 b.topic_indices d n _
    rw [h.topic_indices, h.local_generator, h.K]
  · show a.local_generator.advance = b.local_generator.advance
    rw [h.local_generator]

theorem inferToken_sim (d : Nat) (a b : InferState) (n : Nat) (h : InferSim a b) :
    InferSim (inferToken d a n) (inferToken d b n) := by
  have hpv : (inferToken d a n).prob_vector = (inferToken d b n).prob_vector := by
    show List.map _ (List.range a.self.K) = List.map _ (List.range b.self.K)
    rw [h.K, h.alpha, h.beta, h.V, h.cdk, h.topic_indices, h.CKW, h.CK, h.batch_docs]
  refine ⟨h.K, h.V, h.alpha, h.beta, h.CKW, h.CK, h.batch_docs, ?_, h.theta,
    h.topic_indices, hpv, ?_⟩
  · show upd2 incr (upd2 decr a.cdk d _) d (a.local_generator.mult (inferToken d a n).prob_vector)
      = upd2 incr (upd2 decr b.cdk d _) d (b.local_generator.mult (inferToken d b n).prob_vector)
    rw [hpv, h.cdk, h.topic_indices, h.local_generator]
  · show a.local_generator.advance = b.local_generator.advance
    rw [h.local_generator]

theorem inferThetaDoc_sim (a b : InferState) (d : Nat) (h : InferSim a b) :
    InferSim (inferThetaDoc a d) (inferThetaDoc b d) := by
  refine ⟨h.K, h.V, h.alpha, h.beta, h.CKW, h.CK, h.batch_docs, h.cdk, ?_,
    h.topic_indices, h.prob_vector, h.local_generator⟩
  show a.theta.set d (inferThetaRow a d) = b.theta.set d (inferThetaRow b d)
  have : inferThetaRow a d = inferThetaRow b d := by
    unfold inferThetaRow
    rw [h.K, h.alpha, h.cdk, h.batch_docs]
  rw [this, h.theta]

theorem inferInitDoc_sim (a b : InferState) (d : Nat) (h : InferSim a b) :
    InferSim (inferInitDoc a d) (inferInitDoc b d) := by
  unfold inferInitDoc
  rw [h.batch_docs]
  exact foldl_sim _ _ (inferInitToken_sim d) _ _ (inferInitRow_sim a b d h)

theorem inferDoc_sim (a b : InferState) (d : Nat) (h : InferSim a b) :
    InferSim (inferDoc a d) (inferDoc b d) := by
  unfold inferDoc
  rw [h.batch_docs]
  exact foldl_sim _ _ (inferToken_sim d) _ _ h

theorem inferPass_sim (a b : InferState) (h : InferSim a b) :
    InferSim (inferPass a) (inferPass b) := by
  unfold inferPass
  rw [h.batch_docs]
  exact foldl_sim _ _ inferDoc_sim _ _ h

theorem inferTheta_sim (a b : InferState) (h : InferSim a b) :
    InferSim (inferTheta a) (inferTheta b) := by
  unfold inferTheta
  rw [h.batch_docs]
  exact foldl_sim _ _ inferThetaDoc_sim _ _ h

theorem inferRun_sim (e e' : LDA) (batch_docs : List (List Nat)) (num_iterations : Nat)
    (g : Generator) (hK : e'.K = e.K) (hV : e'.V = e.V) (ha : e'.alpha = e.alpha)
    (hb : e'.beta = e.beta) (hCKW : e'.CKW = e.CKW) (hCK : e'.CK = e.CK) :
    InferSim (inferRun e' batch_docs num_iterations g) (inferRun e batch_docs num_iterations g) := by
  unfold inferRun
  apply inferTheta_sim
  apply foldl_sim _ _ (fun a b _ h => inferPass_sim a b h)
  apply foldl_sim _ _ inferInitDoc_sim
  refine ⟨hK, hV, ha, hb, hCKW, hCK, rfl, ?_, ?_, rfl, ?_, rfl⟩
  · show List.replicate _ (List.replicate e'.K 0) = List.replicate _ (List.replicate e.K 0)
    rw [hK]
  · show List.replicate _ (List.replicate e'.K (some 0)) =
      List.replicate _ (List.replicate e.K (some 0))
    rw [hK]
  · show List.replicate e'.K (some 0) = List.replicate e.K (some 0)
    rw [hK]

/-- C5. `LDA::infer` leaves the engine unchanged: the engine in the program
state at its return is the engine it was called on (so `CKW`, `CK`, `CDK`, `Z`,
`docs`, the token count, `K`, `V`, `alpha` and `beta` are), as is its argument;
and of the engine it reads only `K`, `V`, `alpha`, `beta`, `CKW` and `CK`: on
two engines that agree on these it returns the same matrix. -/
theorem infer_frame (e : LDA) (batch_docs : List (List Nat)) (num_iterations : Nat)
    (g : Generator) :
    (inferRun e batch_docs num_iterations g).self = e ∧
    (inferRun e batch_docs num_iterations g).batch_docs = batch_docs ∧
    (∀ e' : LDA, e'.K = e.K → e'.V = e.V → e'.alpha = e.alpha → e'.beta = e.beta →
      e'.CKW = e.CKW → e'.CK = e.CK →
      infer e' batch_docs num_iterations g = infer e batch_docs num_iterations g) := by
  have h := inferReachable_self e batch_docs g _ (inferRun_reachable e batch_docs num_iterations g)
  refine ⟨h.1, h.2, ?_⟩
  intro e' hK hV ha hb hCKW hCK
  exact (inferRun_sim e e' batch_docs num_iterations g hK hV ha hb hCKW hCK).theta

/-- Witness of C5: an engine that differs from the scenario engine in `CDK`,
`Z` and the token count only gives the same inference result. -/
theorem infer_frame_witness :
    (inferRun scenarioEngine [[0, 0, 1]] 20 cyclicGen).self = scenarioEngine ∧
    infer { scenarioEngine with CDK := [], Z := [], total_num_of_words := 0 } [[0, 0, 1]] 20
      cyclicGen = infer scenarioEngine [[0, 0, 1]] 20 cyclicGen :=
  ⟨(infer_frame scenarioEngine [[0, 0, 1]] 20 cyclicGen).1,
    (infer_frame scenarioEngine [[0, 0, 1]] 20 cyclicGen).2.2 _ rfl rfl rfl rfl rfl rfl⟩

/-! ## Output shapes -/

theorem inferReachable_theta (e : LDA) (batch_docs : List (List Nat)) (g : Generator)
    (st : InferState) (h : InferReachable e batch_docs g st) :
    st.self = e ∧ st.theta.length = batch_docs.length ∧ ∀ row ∈ st.theta, row.length = e.K := by
  induction h with
  | alloc =>
    refine ⟨rfl, List.length_replicate _ _, ?_⟩
    intro row hrow
    rw [List.eq_of_mem_replicate hrow, List.length_replicate]
  | initRow st d _ ih => exact ih
  | initToken st d n _ ih => exact ih
  | token st d n _ ih => exact ih
  | thetaDoc st d _ ih =>
    refine ⟨ih.1, ?_, ?_⟩
    · show (st.theta.set d _).length = _
      rw [List.length_set]; exact ih.2.1
    · intro row hrow
      rcases List.mem_or_eq_of_mem_set hrow with h | h
      · exact ih.2.2 row h
      · rw [h, ← ih.1]
        simp [inferThetaRow]

/-- C10. Output shapes: `getDocTopicMatrix` returns `docs.size()` rows of
length `K`, `getTopicTermMatrix` returns `K` rows of length `V`, and `infer`
returns `batch_docs.size()` rows of length `K`, for every engine, batch (empty
documents and the empty batch included), iteration count and draws. -/
theorem output_shapes (e : LDA) (batch_docs : List (List Nat)) (num_iterations : Nat)
    (g : Generator) :
    ((getDocTopicMatrix e).length = e.docs.length ∧
      ∀ row ∈ getDocTopicMatrix e, row.length = e.K) ∧
    ((getTopicTermMatrix e).length = e.K ∧
      ∀ row ∈ getTopicTermMatrix e, row.length = e.V) ∧
    ((infer e batch_docs num_iterations g).length = batch_docs.length ∧
      ∀ row ∈ infer e batch_docs num_iterations g, row.length = e.K) := by
  refine ⟨⟨?_, ?_⟩, ⟨?_, ?_⟩, ?_⟩
  · simp [getDocTopicMatrix]
  · intro row hrow
    simp only [getDocTopicMatrix, List.mem_map] at hrow
    obtain ⟨d, _, rfl⟩ := hrow
    simp
  · simp [getTopicTermMatrix]
  · intro row hrow
    simp only [getTopicTermMatrix, List.mem_map] at hrow
    obtain ⟨k, _, rfl⟩ := hrow
    simp
  · exact (inferReachable_theta e batch_docs g _
      (inferRun_reachable e batch_docs num_iterations g)).2


/-- Witness of C10: the scenario engine and a batch with an empty document. -/
theorem output_shapes_witness :
    ((getDocTopicMatrix scenarioEngine).length = scenarioEngine.docs.length ∧
      ∀ row ∈ getDocTopicMatrix scenarioEngine, row.length = scenarioEngine.K) ∧
    ((getTopicTermMatrix scenarioEngine).length = scenarioEngine.K ∧
      ∀ row ∈ getTopicTermMatrix scenarioEngine, row.length = scenarioEngine.V) ∧
    ((infer scenarioEngine [[], [0, 0, 1]] 20 cyclicGen).length = [[], [0, 0, 1]].length ∧
      ∀ row ∈ infer scenarioEngine [[], [0, 0, 1]] 20 cyclicGen,
        row.length = scenarioEngine.K) :=
  output_shapes scenarioEngine [[], [0, 0, 1]] 20 cyclicGen

/-! ## Normalisation of the extracted matrices -/

theorem fsum_append_singleton (l : List (Option ℚ)) (x : Option ℚ) :
    fsum (l ++ [x]) = (fsum l).bind fun a => x.map fun b => a + b := by
  unfold fsum
  rw [List.foldl_append]
  rfl

theorem fsum_map_range (f : Nat → Option ℚ) (v : Nat → ℚ) (n : Nat)
    (h : ∀ k, k < n → f k = some (v k)) :
    fsum ((List.range n).map f) = some (∑ k ∈ Finset.range n, v k) := by
  induction n with
  | zero => rfl
  | succ m ih =>
    rw [List.range_succ, List.map_append, List.map_singleton, fsum_append_singleton,
      ih (fun k hk => h k (Nat.lt_succ_of_lt hk)), h m (Nat.lt_succ_self m),
      Finset.sum_range_succ]
    rfl

theorem fdiv_of_ne (a b : ℚ) (h : b ≠ 0) : fdiv a b = some (a / b) := by
  unfold fdiv
  rw [if_neg h]

theorem getD_map_range {α : Type} (f : Nat → α) (n i : Nat) (dflt : α) (hi : i < n) :
    ((List.range n).map f).getD i dflt = f i := by
  rw [List.getD_eq_getElem _ _ (by simpa using hi)]
  simp

/-- C6 (amended). In every state reachable by construction followed by token
updates, every row `d` of `getDocTopicMatrix` whose denominator
`N_d + K * alpha` is not zero (a non-empty document, or `alpha > 0`) has all its
entries defined and sums to exactly `1`. -/
theorem docTopic_row_sum (s : LDA) (h : Reachable s) (d : Nat) (hd : d < s.docs.length)
    (hden : ((s.docs.getD d []).length : ℚ) + (s.K : ℚ) * s.alpha ≠ 0) :
    fsum ((getDocTopicMatrix s).getD d []) = some 1 := by
  have hI := reachable_inv s h
  unfold getDocTopicMatrix
  rw [getD_map_range _ _ _ _ hd]
  rw [fsum_map_range _
    (fun k => ((get2 s.CDK d k : ℚ) + s.alpha) /
      (((s.docs.getD d []).length : ℚ) + (s.K : ℚ) * s.alpha)) s.K
    (fun k _ => fdiv_of_ne _ _ hden)]
  congr 1
  rw [← Finset.sum_div, Finset.sum_add_distrib, ← Nat.cast_sum, inv_row_sum s hI d hd,
    Finset.sum_const, Finset.card_range, nsmul_eq_mul]
  exact div_self hden

theorem emptyDocEngine_reachable : Reachable emptyDocEngine :=
  Reachable.construct [[0], []] 1 2 0 (1 / 10) cyclicGen (by unfold TermsBelow; decide)
    (by decide) cyclicGen_valid (by unfold numTokens; norm_num)

/-- C6 (as stated, fails). On the corpus `[[0], []]` with `K = 2`, `alpha = 0`
(valid inputs), the second row of `getDocTopicMatrix` has the denominator
`0 + 2 * 0 = 0`: its entries are `0 / 0` and the row does not sum to `1`. -/
theorem docTopic_row_sum_counterexample :
    Reachable emptyDocEngine ∧ 0 ≤ emptyDocEngine.alpha ∧ 0 ≤ emptyDocEngine.beta ∧
    1 < emptyDocEngine.docs.length ∧
    ((emptyDocEngine.docs.getD 1 []).length : ℚ) + (emptyDocEngine.K : ℚ) * emptyDocEngine.alpha
      = 0 ∧
    (getDocTopicMatrix emptyDocEngine).getD 1 [] = [none, none] ∧
    fsum ((getDocTopicMatrix emptyDocEngine).getD 1 []) ≠ some 1 :=
  ⟨emptyDocEngine_reachable, by decide!, by decide!, by decide!, by decide!, by decide!,
    by decide!⟩

/-- Witness of C6 (amended): the first document of the scenario engine. -/
theorem docTopic_row_sum_witness :
    fsum ((getDocTopicMatrix scenarioEngine).getD 0 []) = some 1 :=
  docTopic_row_sum scenarioEngine scenario_reachable 0 (by decide!) (by decide!)

/-- C7 (amended). In every state reachable by construction followed by token
updates, every row `k` of `getTopicTermMatrix` whose denominator
`CK[k] + V * beta` is not zero (`beta > 0` with `V >= 1`, or a topic that holds
a token) has all its entries defined and sums to exactly `1`. -/
theorem topicTerm_row_sum (s : LDA) (h : Reachable s) (k : Nat) (hk : k < s.K)
    (hden : (get1 s.CK k : ℚ) + (s.V : ℚ) * s.beta ≠ 0) :
    fsum ((getTopicTermMatrix s).getD k []) = some 1 := by
  have hI := reachable_inv s h
  unfold getTopicTermMatrix
  rw [getD_map_range _ _ _ _ hk]
  rw [fsum_map_range _
    (fun v => ((get2 s.CKW k v : ℚ) + s.beta) / ((get1 s.CK k : ℚ) + (s.V : ℚ) * s.beta)) s.V
    (fun v _ => fdiv_of_ne _ _ hden)]
  congr 1
  rw [← Finset.sum_div, Finset.sum_add_distrib, ← Nat.cast_sum, ← inv_ck_ckw s hI k hk,
    Finset.sum_const, Finset.card_range, nsmul_eq_mul]
  exact div_self hden

theorem emptyTopicEngine_reachable : Reachable emptyTopicEngine :=
  Reachable.construct [[0]] 1 2 1 0 cyclicGen (by unfold TermsBelow; decide)
    (by decide) cyclicGen_valid (by unfold numTokens; norm_num)

/-- C7 (as stated, fails). On the corpus `[[0]]` with `V = 1`, `K = 2`,
`beta = 0` (valid inputs) the token holds topic 0, so `CK[1] = 0` and row 1 of
`getTopicTermMatrix` has the denominator `0 + 1 * 0 = 0`: its entry is `0 / 0`
and the row does not sum to `1`. -/
theorem topicTerm_row_sum_counterexample :
    Reachable emptyTopicEngine ∧ 0 ≤ emptyTopicEngine.alpha ∧ 0 ≤ emptyTopicEngine.beta ∧
    1 < emptyTopicEngine.K ∧
    (get1 emptyTopicEngine.CK 1 : ℚ) + (emptyTopicEngine.V : ℚ) * emptyTopicEngine.beta = 0 ∧
    (getTopicTermMatrix emptyTopicEngine).getD 1 [] = [none] ∧
    fsum ((getTopicTermMatrix emptyTopicEngine).getD 1 []) ≠ some 1 :=
  ⟨emptyTopicEngine_reachable, by decide!, by decide!, by decide!, by decide!, by decide!,
    by decide!⟩

/-- Witness of C7 (amended): topic 0 of the scenario engine. -/
theorem topicTerm_row_sum_witness :
    fsum ((getTopicTermMatrix scenarioEngine).getD 0 []) = some 1 :=
  topicTerm_row_sum scenarioEngine scenario_reachable 0 (by decide!) (by decide!)

/-! ## Perplexity -/

theorem cnt_pos (docs : List (List Nat)) (P : Nat → Nat → Prop) [∀ d n, Decidable (P d n)]
    (d n : Nat) (hd : d < docs.length) (hn : n < (docs.getD d []).length) (hP : P d n) :
    0 < cnt docs P := by
  unfold cnt
  rw [Finset.card_pos]
  exact ⟨(d, n), by rw [Finset.mem_filter, mem_tokens]; exact ⟨⟨hd, hn⟩, hP⟩⟩

theorem inv_token_counts (s : LDA) (hI : Inv s) (d n : Nat) (hd : d < s.docs.length)
    (hn : n < (s.docs.getD d []).length) :
    get2 s.Z d n < s.K ∧ 1 ≤ get2 s.CDK d (get2 s.Z d n) ∧
    1 ≤ get2 s.CKW (get2 s.Z d n) (get2 s.docs d n) ∧ 1 ≤ get1 s.CK (get2 s.Z d n) := by
  have hz := hI.agg.zlt d n hd hn rfl
  refine ⟨hz, ?_, ?_, ?_⟩
  · rw [hI.agg.cdk d _ hd hz]
    exact cnt_pos _ _ d n hd hn ⟨rfl, rfl, rfl⟩
  · rw [hI.agg.ckw _ _ hz (hI.wf.terms d n hd hn)]
    exact cnt_pos _ _ d n hd hn ⟨rfl, rfl, rfl⟩
  · rw [hI.agg.ck _ hz]
    exact cnt_pos _ _ d n hd hn ⟨rfl, rfl⟩

theorem likelihood_pos (s : LDA) (hI : Inv s) (ha : 0 ≤ s.alpha) (hb : 0 ≤ s.beta)
    (hden : ∀ k, k < s.K → (get1 s.CK k : ℚ) + (s.V : ℚ) * s.beta ≠ 0)
    (d n : Nat) (hd : d < s.docs.length) (hn : n < (s.docs.getD d []).length) :
    ∃ L, likelihood s d n = some L ∧ 0 < L := by
  obtain ⟨hz, h1, h2, h3⟩ := inv_token_counts s hI d n hd hn
  have hN : (0 : ℚ) < (s.K : ℚ) * s.alpha + ((s.docs.getD d []).length : ℚ) := by
    have : (1 : ℚ) ≤ ((s.docs.getD d []).length : ℚ) := by
      exact_mod_cast (Nat.succ_le_of_lt (Nat.lt_of_le_of_lt (Nat.zero_le n) hn))
    have : (0 : ℚ) ≤ (s.K : ℚ) * s.alpha := mul_nonneg (Nat.cast_nonneg _) ha
    linarith
  have hC : ∀ k, k < s.K → (0 : ℚ) < (get1 s.CK k : ℚ) + (s.V : ℚ) * s.beta := by
    intro k hk
    have h0 : (0 : ℚ) ≤ (get1 s.CK k : ℚ) + (s.V : ℚ) * s.beta :=
      add_nonneg (Nat.cast_nonneg _) (mul_nonneg (Nat.cast_nonneg _) hb)
    exact lt_of_le_of_ne h0 (Ne.symm (hden k hk))
  refine ⟨_, fsum_map_range _
    (fun k => (((get2 s.CDK d k : ℚ) + s.alpha) * ((get2 s.CKW k (get2 s.docs d n) : ℚ) + s.beta)) /
      (((s.K : ℚ) * s.alpha + ((s.docs.getD d []).length : ℚ)) *
        ((get1 s.CK k : ℚ) + (s.V : ℚ) * s.beta))) s.K
    (fun k hk => fdiv_of_ne _ _ (ne_of_gt (mul_pos hN (hC k hk)))), ?_⟩
  apply Finset.sum_pos'
  · intro k hk
    rw [Finset.mem_range] at hk
    apply div_nonneg
    · exact mul_nonneg (add_nonneg (Nat.cast_nonneg _) ha) (add_nonneg (Nat.cast_nonneg _) hb)
    · exact le_of_lt (mul_pos hN (hC k hk))
  · refine ⟨get2 s.Z d n, Finset.mem_range.2 hz, ?_⟩
    apply div_pos
    · apply mul_pos
      · have : (1 : ℚ) ≤ (get2 s.CDK d (get2 s.Z d n) : ℚ) := by exact_mod_cast h1
        linarith
      · have : (1 : ℚ) ≤ (get2 s.CKW (get2 s.Z d n) (get2 s.docs d n) : ℚ) := by
          exact_mod_cast h2
        linarith
    · exact mul_pos hN (hC _ hz)

theorem all_some_pos (l : List (Option ℚ)) (h : ∀ x ∈ l, ∃ L, x = some L ∧ 0 < L) :
    ∃ Ls : List ℚ, l = Ls.map some ∧ ∀ L ∈ Ls, 0 < L := by
  induction l with
  | nil => exact ⟨[], rfl, fun _ h => by simp at h⟩
  | cons x l ih =>
    obtain ⟨L, rfl, hL⟩ := h x (List.mem_cons_self _ _)
    obtain ⟨Ls, rfl, hLs⟩ := ih (fun y hy => h y (List.mem_cons_of_mem _ hy))
    refine ⟨L :: Ls, rfl, ?_⟩
    intro y hy
    rcases List.mem_cons.1 hy with h1 | h1
    · rw [h1]; exact hL
    · exact hLs y h1

/-- C8 (amended). In every state reachable by construction followed by token
updates, with `alpha >= 0`, `beta >= 0`, at least one token, and every
denominator `CK[k] + V * beta` different from zero (which `beta > 0` ensures),
the likelihood `calculate_perplexity` computes for each token is defined and
strictly positive; so every `log` is taken of a positive number, the divisor
`total_num_of_words` is not zero, and the returned perplexity
`exp(-log_likelihood / total_num_of_words)` is a positive real. -/
theorem perplexity_positive (s : LDA) (h : Reachable s) (ha : 0 ≤ s.alpha) (hb : 0 ≤ s.beta)
    (hden : ∀ k, k < s.K → (get1 s.CK k : ℚ) + (s.V : ℚ) * s.beta ≠ 0)
    (htok : 0 < numTokens s.docs) :
    (∀ d n, d < s.docs.length → n < (s.docs.getD d []).length →
      ∃ L, likelihood s d n = some L ∧ 0 < L) ∧
    s.total_num_of_words ≠ 0 ∧
    ∃ Ls : List ℚ, likelihoods s = Ls.map some ∧ (∀ L ∈ Ls, 0 < L) ∧
      0 < Real.exp (-(Ls.map fun L => Real.log (L : ℝ)).sum / (s.total_num_of_words : ℝ)) := by
  have hI := reachable_inv s h
  have hlik := likelihood_pos s hI ha hb hden
  refine ⟨hlik, ?_, ?_⟩
  · rw [hI.total, card_tokens]
    exact Nat.pos_iff_ne_zero.1 htok
  · obtain ⟨Ls, h1, h2⟩ := all_some_pos (likelihoods s) (by
      intro x hx
      simp only [likelihoods, List.mem_flatMap, List.mem_map, List.mem_range] at hx
      obtain ⟨d, hd, n, hn, rfl⟩ := hx
      exact hlik d n hd hn)
    exact ⟨Ls, h1, h2, Real.exp_pos _⟩

/-- C8 (as stated, fails). On the corpus `[[0]]` with `V = 1`, `K = 2`,
`alpha = 1`, `beta = 0` (valid inputs, one token) the token holds topic 0 and
`CK[1] = 0`; the summand of topic 1 is `(0 + 1) * (0 + 0) / ((2 * 1 + 1) * (0 + 1 * 0))`,
a division by zero, so the likelihood of the token has no value. -/
theorem perplexity_positive_counterexample :
    Reachable emptyTopicEngine ∧ 0 ≤ emptyTopicEngine.alpha ∧ 0 ≤ emptyTopicEngine.beta ∧
    0 < numTokens emptyTopicEngine.docs ∧ emptyTopicEngine.total_num_of_words = 1 ∧
    ((emptyTopicEngine.K : ℚ) * emptyTopicEngine.alpha +
        ((emptyTopicEngine.docs.getD 0 []).length : ℚ)) *
      ((get1 emptyTopicEngine.CK 1 : ℚ) + (emptyTopicEngine.V : ℚ) * emptyTopicEngine.beta) = 0 ∧
    likelihood emptyTopicEngine 0 0 = none ∧
    ¬ ∃ L, likelihood emptyTopicEngine 0 0 = some L ∧ 0 < L := by
  refine ⟨emptyTopicEngine_reachable, by decide!, by decide!, by decide!, by decide!,
    by decide!, by decide!, ?_⟩
  rintro ⟨L, hL, -⟩
  have : likelihood emptyTopicEngine 0 0 = none := by decide!
  rw [this] at hL
  exact Option.noConfusion hL

theorem scenario_params : scenarioEngine.docs = scenarioDocs ∧ scenarioEngine.K = 2 ∧
    scenarioEngine.V = 3 ∧ scenarioEngine.alpha = 1 / 10 ∧ scenarioEngine.beta = 1 / 10 :=
  construct_params scenarioDocs 3 2 (1 / 10) (1 / 10) cyclicGen

/-- Witness of C8 (amended): the scenario engine (`beta = 1/10`). -/
theorem perplexity_positive_witness :
    (∀ d n, d < scenarioEngine.docs.length → n < (scenarioEngine.docs.getD d []).length →
      ∃ L, likelihood scenarioEngine d n = some L ∧ 0 < L) ∧
    scenarioEngine.total_num_of_words ≠ 0 ∧
    ∃ Ls : List ℚ, likelihoods scenarioEngine = Ls.map some ∧ (∀ L ∈ Ls, 0 < L) ∧
      0 < Real.exp (-(Ls.map fun L => Real.log (L : ℝ)).sum /
        (scenarioEngine.total_num_of_words : ℝ)) :=
  perplexity_positive scenarioEngine scenario_reachable (by decide!) (by decide!)
    (by decide!) (by decide!)

/-! ## Degenerate sampling weights -/

theorem score_pos (alpha beta : ℚ) (V cdk ckw ck : Nat) (ha : 0 < alpha) (hb : 0 < beta)
    (hV : 1 ≤ V) : ∃ q, score alpha beta V cdk ckw ck = some q ∧ 0 < q := by
  have hden : (0 : ℚ) < (ck : ℚ) + (V : ℚ) * beta := by
    have h1 : (0 : ℚ) ≤ (ck : ℚ) := Nat.cast_nonneg _
    have h2 : (0 : ℚ) < (V : ℚ) := by exact_mod_cast hV
    have h3 : (0 : ℚ) < (V : ℚ) * beta := mul_pos h2 hb
    linarith
  refine ⟨_, fdiv_of_ne _ _ (ne_of_gt hden), ?_⟩
  apply div_pos _ hden
  apply mul_pos
  · have : (0 : ℚ) ≤ (cdk : ℚ) := Nat.cast_nonneg _
    linarith
  · have : (0 : ℚ) ≤ (ckw : ℚ) := Nat.cast_nonneg _
    linarith

theorem prob_vector_pos (s : LDA) (hI : Inv s) (d n : Nat) (hd : d < s.docs.length)
    (hn : n < (s.docs.getD d []).length) (ha : 0 < s.alpha) (hb : 0 < s.beta) :
    ∃ x ∈ prob_vector d s n, ∃ q, x = some q ∧ 0 < q := by
  have hV : 1 ≤ s.V := Nat.succ_le_of_lt
    (Nat.lt_of_le_of_lt (Nat.zero_le _) (hI.wf.terms d n hd hn))
  have hK : 0 < s.K := hI.wf.topics
  refine ⟨_, ?_, score_pos s.alpha s.beta s.V (get2 (retract d s n).CDK d 0)
    (get2 (retract d s n).CKW 0 (get2 s.docs d n)) (get1 (retract d s n).CK 0) ha hb hV⟩
  unfold prob_vector scores
  rw [List.mem_map]
  exact ⟨0, List.mem_range.2 hK, rfl⟩

/-- C9 (amended). In a token update of `estimate` on a reachable state with
`alpha >= 0` and `beta >= 0`, if all `K` scores of `prob_vector` (computed after
the decrements), taken in exact arithmetic, are zero then `alpha = 0` or
`beta = 0`; equivalently, whenever `alpha > 0` and `beta > 0` at least one score
is strictly positive in exact arithmetic. -/
theorem scores_zero_imp (s : LDA) (h : Reachable s) (ha : 0 ≤ s.alpha) (hb : 0 ≤ s.beta)
    (d n : Nat) (hd : d < s.docs.length) (hn : n < (s.docs.getD d []).length) :
    ((∀ x ∈ prob_vector d s n, x = some 0) → s.alpha = 0 ∨ s.beta = 0) ∧
    (0 < s.alpha → 0 < s.beta → ∃ x ∈ prob_vector d s n, ∃ q, x = some q ∧ 0 < q) := by
  have hI := reachable_inv s h
  constructor
  · intro hall
    by_contra hne
    rw [not_or] at hne
    obtain ⟨x, hx, q, hq, hpos⟩ := prob_vector_pos s hI d n hd hn
      (lt_of_le_of_ne ha (Ne.symm hne.1)) (lt_of_le_of_ne hb (Ne.symm hne.2))
    have := hall x hx
    rw [hq] at this
    have hq0 : q = 0 := Option.some.inj this
    rw [hq0] at hpos
    exact lt_irrefl _ hpos
  · intro ha' hb'
    exact prob_vector_pos s hI d n hd hn ha' hb'

theorem rareTermEngine_reachable : Reachable rareTermEngine :=
  Reachable.construct [[0, 1]] 2 1 1 0 cyclicGen (by unfold TermsBelow; decide)
    (by decide) cyclicGen_valid (by unfold numTokens; norm_num)

theorem loneTokenEngine_reachable : Reachable loneTokenEngine :=
  Reachable.construct [[0]] 1 1 0 1 cyclicGen (by unfold TermsBelow; decide)
    (by decide) cyclicGen_valid (by unfold numTokens; norm_num)

set_option maxRecDepth 1000000 in
/-- Values of the binary32 rounding: `0.1f`, the tie `2 ^ 24 + 1`, the largest
finite `float` and the overflow threshold, and the subnormal range. -/
theorem f32_values :
    f32 (1 / 10) = some (13421773 / 2 ^ 27) ∧
    f32 1 = some 1 ∧
    f32 16777217 = some 16777216 ∧
    f32 16777219 = some 16777220 ∧
    f32 (2 ^ 128 - 2 ^ 103 - 1) = some (2 ^ 128 - 2 ^ 104) ∧
    f32 (2 ^ 128 - 2 ^ 103) = none ∧
    f32 (1 / 2 ^ 149) = some (1 / 2 ^ 149) ∧
    f32 (1 / 2 ^ 150) = some 0 ∧
    f32 (3 / 2 ^ 151) = some (1 / 2 ^ 149) ∧
    f32 (-(1 / 10)) = some (-(13421773 / 2 ^ 27)) := by
  decide!

theorem tinyEngine_reachable : Reachable tinyEngine :=
  Reachable.construct [[0]] 1 1 (1 / 2 ^ 80) (1 / 2 ^ 80) cyclicGen
    (by unfold TermsBelow; decide) (by decide) cyclicGen_valid (by unfold numTokens; norm_num)

theorem subnormalEngine_reachable : Reachable subnormalEngine :=
  Reachable.construct [[0]] 4 1 (1 / 2 ^ 149) 1 cyclicGen
    (by unfold TermsBelow; decide) (by decide) cyclicGen_valid (by unfold numTokens; norm_num)

set_option maxRecDepth 1000000 in
/-- C9 (as stated, fails). On the corpus `[[0, 1]]` with `V = 2`, `K = 1`,
`alpha = 1`, `beta = 0`, the token `(0, 0)` is the only one with term 0: after
its decrement `CKW[0][0] = 0` and the only score is `(1 + 1) * (0 + 0) / (1 + 2 * 0) = 0`,
although `alpha = 1`.  On the corpus `[[0]]` with `V = 1`, `K = 1`, `alpha = 0`,
`beta = 1`, the only score is `(0 + 0) * (0 + 1) / (0 + 1 * 1) = 0`, although
`beta = 1`.  Both scores are `0` in exact arithmetic and as the code computes
them.  On the corpus `[[0]]` with `V = 1`, `K = 1`, `alpha = beta = 2 ^ -80`
(both `float` values), the only score as the code computes it is `0`, because the
product `2 ^ -80 * 2 ^ -80` rounds to `0` in binary32, although neither `alpha`
nor `beta` is zero and the exact value is `2 ^ -80`. -/
theorem scores_zero_counterexample :
    (Reachable rareTermEngine ∧ rareTermEngine.alpha = 1 ∧ rareTermEngine.beta = 0 ∧
      0 < rareTermEngine.docs.length ∧ 0 < (rareTermEngine.docs.getD 0 []).length ∧
      prob_vector 0 rareTermEngine 0 = [some 0] ∧
      prob_vectorF32 0 rareTermEngine 0 = [some 0] ∧
      (∀ x ∈ prob_vector 0 rareTermEngine 0, x = some 0) ∧
      ¬ (rareTermEngine.alpha = 0 ∧ rareTermEngine.beta = 0)) ∧
    (Reachable loneTokenEngine ∧ loneTokenEngine.alpha = 0 ∧ loneTokenEngine.beta = 1 ∧
      0 < loneTokenEngine.docs.length ∧ 0 < (loneTokenEngine.docs.getD 0 []).length ∧
      prob_vector 0 loneTokenEngine 0 = [some 0] ∧
      prob_vectorF32 0 loneTokenEngine 0 = [some 0] ∧
      (∀ x ∈ prob_vector 0 loneTokenEngine 0, x = some 0) ∧
      ¬ (loneTokenEngine.alpha = 0 ∧ loneTokenEngine.beta = 0)) ∧
    (Reachable tinyEngine ∧ tinyEngine.alpha = 1 / 2 ^ 80 ∧ tinyEngine.beta = 1 / 2 ^ 80 ∧
      f32 tinyEngine.alpha = some tinyEngine.alpha ∧
      f32 tinyEngine.beta = some tinyEngine.beta ∧
      0 < tinyEngine.docs.length ∧ 0 < (tinyEngine.docs.getD 0 []).length ∧
      prob_vectorF32 0 tinyEngine 0 = [some 0] ∧
      (∀ x ∈ prob_vectorF32 0 tinyEngine 0, x = some 0) ∧
      prob_vector 0 tinyEngine 0 = [some (1 / 2 ^ 80)] ∧
      ¬ (tinyEngine.alpha = 0 ∨ tinyEngine.beta = 0)) :=
  ⟨⟨rareTermEngine_reachable, by decide!, by decide!, by decide!, by decide!, by decide!,
      by decide!, by decide!, by decide!⟩,
    ⟨loneTokenEngine_reachable, by decide!, by decide!, by decide!, by decide!, by decide!,
      by decide!, by decide!, by decide!⟩,
    ⟨tinyEngine_reachable, by decide!, by decide!, by decide!, by decide!, by decide!,
      by decide!, by decide!, by decide!, by decide!, by decide!⟩⟩

/-- Witness of C9 (amended): for token `(0, 0)` of the scenario engine
(`alpha = beta = 1/10`) some score is strictly positive in exact arithmetic. -/
theorem scores_zero_imp_witness :
    ∃ x ∈ prob_vector 0 scenarioEngine 0, ∃ q, x = some q ∧ 0 < q :=
  (scores_zero_imp scenarioEngine scenario_reachable (by decide!) (by decide!) 0 0
    (by decide!) (by decide!)).2 (by decide!) (by decide!)

/-! ## The sampling weights leave the current token out -/

theorem maskDel_all_iff (d n d' n' : Nat) :
    maskDel maskAll d n d' n' = true ↔ (d', n') ≠ (d, n) := by
  simp only [maskDel, maskAll, Bool.true_and, Bool.not_eq_true', Bool.and_eq_false_iff,
    beq_eq_false_iff_ne, ne_eq, Prod.mk.injEq, not_and]
  tauto

/-- C11. In a training update of `estimate` for token `(d, n)` with term `w` on
a reachable state, the weight vector handed to the sampler is, for every `k`,
`(A[k] + alpha) * (B[k] + beta) / (C[k] + V * beta)` where `A[k]` counts the
tokens of document `d` other than `(d, n)` with topic `k`, `B[k]` the tokens of
the corpus other than `(d, n)` with term `w` and topic `k`, and `C[k]` the
tokens of the corpus other than `(d, n)` with topic `k`. -/
theorem weights_exclude_token (s : LDA) (h : Reachable s) (d n : Nat)
    (hd : d < s.docs.length) (hn : n < (s.docs.getD d []).length) :
    prob_vector d s n = (List.range s.K).map fun k =>
      score s.alpha s.beta s.V
        ((tokens s.docs).filter fun p =>
          p ≠ (d, n) ∧ p.1 = d ∧ get2 s.Z p.1 p.2 = k).card
        ((tokens s.docs).filter fun p =>
          p ≠ (d, n) ∧ get2 s.docs p.1 p.2 = get2 s.docs d n ∧ get2 s.Z p.1 p.2 = k).card
        ((tokens s.docs).filter fun p => p ≠ (d, n) ∧ get2 s.Z p.1 p.2 = k).card := by
  have hI := reachable_inv s h
  have hA := retract_agg s d n hI hd hn
  have hw := hI.wf.terms d n hd hn
  unfold prob_vector scores
  apply List.map_congr_left
  intro k hk
  rw [List.mem_range] at hk
  have h1 := hA.cdk d k hd hk
  have h2 := hA.ckw k (get2 s.docs d n) hk hw
  have h3 := hA.ck k hk
  show score s.alpha s.beta s.V (get2 (retract d s n).CDK d k)
    (get2 (retract d s n).CKW k (get2 s.docs d n)) (get1 (retract d s n).CK k) = _
  rw [h1, h2, h3]
  have e1 : nDK (retract d s n).docs (maskDel maskAll d n) (retract d s n).Z d k =
      ((tokens s.docs).filter fun p =>
          p ≠ (d, n) ∧ p.1 = d ∧ get2 s.Z p.1 p.2 = k).card := by
    unfold nDK cnt
    congr 1
    apply Finset.filter_congr
    rintro ⟨a, b⟩ _
    exact and_congr (maskDel_all_iff d n a b) Iff.rfl
  have e2 : nKW (retract d s n).docs (maskDel maskAll d n) (retract d s n).Z k
      (get2 s.docs d n) =
      ((tokens s.docs).filter fun p =>
          p ≠ (d, n) ∧ get2 s.docs p.1 p.2 = get2 s.docs d n ∧ get2 s.Z p.1 p.2 = k).card := by
    unfold nKW cnt
    congr 1
    apply Finset.filter_congr
    rintro ⟨a, b⟩ _
    exact and_congr (maskDel_all_iff d n a b) Iff.rfl
  have e3 : nK (retract d s n).docs (maskDel maskAll d n) (retract d s n).Z k =
      ((tokens s.docs).filter fun p => p ≠ (d, n) ∧ get2 s.Z p.1 p.2 = k).card := by
    unfold nK cnt
    congr 1
    apply Finset.filter_congr
    rintro ⟨a, b⟩ _
    exact and_congr (maskDel_all_iff d n a b) Iff.rfl
  rw [e1, e2, e3]

/-- Witness of C11: token `(1, 0)` of the scenario engine. -/
theorem weights_exclude_token_witness :
    prob_vector 1 scenarioEngine 0 = (List.range scenarioEngine.K).map fun k =>
      score scenarioEngine.alpha scenarioEngine.beta scenarioEngine.V
        ((tokens scenarioEngine.docs).filter fun p =>
          p ≠ (1, 0) ∧ p.1 = 1 ∧ get2 scenarioEngine.Z p.1 p.2 = k).card
        ((tokens scenarioEngine.docs).filter fun p =>
          p ≠ (1, 0) ∧ get2 scenarioEngine.docs p.1 p.2 = get2 scenarioEngine.docs 1 0 ∧
            get2 scenarioEngine.Z p.1 p.2 = k).card
        ((tokens scenarioEngine.docs).filter fun p =>
          p ≠ (1, 0) ∧ get2 scenarioEngine.Z p.1 p.2 = k).card :=
  weights_exclude_token scenarioEngine scenario_reachable 1 0 (by decide!) (by decide!)

/-! ## Frame of a token update -/

theorem cnt_replace (docs : List (List Nat)) (Z : List (List Nat))
    (Q : Nat → Nat → Nat → Prop) [∀ a b c, Decidable (Q a b c)] (d n t : Nat)
    (hd : d < docs.length) (hn : n < (docs.getD d []).length)
    (hdZ : d < Z.length) (hnZ : n < (Z.getD d []).length) :
    cnt docs (fun d' n' => maskAll d' n' = true ∧ Q d' n' (get2 (set2 Z d n t) d' n')) +
        (if Q d n (get2 Z d n) then 1 else 0) =
      cnt docs (fun d' n' => maskAll d' n' = true ∧ Q d' n' (get2 Z d' n')) +
        (if Q d n t then 1 else 0) := by
  have h1 := cnt_del_mask docs maskAll Z Q d n hd hn rfl
  have h2 := cnt_add_mask docs (maskDel maskAll d n) Z (set2 Z d n t) Q d n t hd hn
    (by simp [maskDel])
    (by rw [get2_set2, if_pos ⟨rfl, rfl, hdZ, hnZ⟩])
    (by
      intro d' n' hne
      rw [get2_set2, if_neg (fun hh => hne ⟨hh.1, hh.2.1⟩)])
  have h3 : cnt docs (fun d' n' => maskAdd (maskDel maskAll d n) d n d' n' = true ∧
        Q d' n' (get2 (set2 Z d n t) d' n')) =
      cnt docs (fun d' n' => maskAll d' n' = true ∧ Q d' n' (get2 (set2 Z d n t) d' n')) := by
    apply cnt_congr
    intro a b _ _
    have : maskAdd (maskDel maskAll d n) d n a b = maskAll a b := by
      simp [maskAdd, maskDel, maskAll]; tauto
    rw [this]
  rw [h3] at h2
  rw [h1, h2]
  omega

theorem set_getD_self {α : Type} (l : List α) (i : Nat) (dflt : α) :
    l.set i (l.getD i dflt) = l := by
  induction l generalizing i with
  | nil => rfl
  | cons a l ih =>
    cases i with
    | zero => rfl
    | succ j =>
      show a :: l.set j (l.getD j dflt) = a :: l
      rw [ih]

theorem set1_self (v : List Nat) (i : Nat) : upd1 (fun _ => v.getD i 0) v i = v := by
  unfold upd1
  exact set_getD_self v i 0

theorem set2_self (m : List (List Nat)) (i j : Nat) : set2 m i j (get2 m i j) = m := by
  unfold set2 upd2 get2
  rw [set1_self]
  exact set_getD_self m i []

theorem vector_ext (a b : List Nat) (hlen : a.length = b.length)
    (h : ∀ i, i < a.length → get1 a i = get1 b i) : a = b := by
  apply List.ext_getElem hlen
  intro i h1 h2
  have := h i h1
  unfold get1 at this
  rw [List.getD_eq_getElem _ _ h1, List.getD_eq_getElem _ _ h2] at this
  exact this

theorem matrix_ext (a b : List (List Nat)) (hlen : a.length = b.length)
    (hrow : ∀ i, i < a.length → (a.getD i []).length = (b.getD i []).length)
    (h : ∀ i j, i < a.length → j < (a.getD i []).length → get2 a i j = get2 b i j) :
    a = b := by
  apply List.ext_getElem hlen
  intro i h1 h2
  have hr := hrow i h1
  have hh := h i
  unfold get2 at hh
  rw [List.getD_eq_getElem _ _ h1, List.getD_eq_getElem _ _ h2] at hr hh
  exact vector_ext _ _ hr (fun j hj => hh j h1 hj)

theorem estimateToken_Z (s : LDA) (d n : Nat) :
    (estimateToken d s n).Z = set2 s.Z d n (sampled d s n) := rfl

theorem token_update_counts (s : LDA) (hI : Inv s) (d n : Nat)
    (hd : d < s.docs.length) (hn : n < (s.docs.getD d []).length) :
    (∀ d' k, d' < s.docs.length → k < s.K →
      get2 (estimateToken d s n).CDK d' k + (if d' = d ∧ k = get2 s.Z d n then 1 else 0) =
        get2 s.CDK d' k + (if d' = d ∧ k = sampled d s n then 1 else 0)) ∧
    (∀ k w, k < s.K → w < s.V →
      get2 (estimateToken d s n).CKW k w +
          (if k = get2 s.Z d n ∧ w = get2 s.docs d n then 1 else 0) =
        get2 s.CKW k w + (if k = sampled d s n ∧ w = get2 s.docs d n then 1 else 0)) ∧
    (∀ k, k < s.K →
      get1 (estimateToken d s n).CK k + (if k = get2 s.Z d n then 1 else 0) =
        get1 s.CK k + (if k = sampled d s n then 1 else 0)) := by
  have hI' := estimateToken_inv s d n hI hd hn
  have hdZ : d < s.Z.length := by rw [hI.agg.lenZ]; exact hd
  have hnZ : n < (s.Z.getD d []).length := by rw [hI.rowZ d hd]; exact hn
  refine ⟨?_, ?_, ?_⟩
  · intro d' k hd' hk
    have e1 := hI'.agg.cdk d' k hd' hk
    have e2 := hI.agg.cdk d' k hd' hk
    have key := cnt_replace s.docs s.Z (fun a _ c => a = d' ∧ c = k) d n (sampled d s n)
      hd hn hdZ hnZ
    have e1' : get2 (estimateToken d s n).CDK d' k =
        nDK s.docs maskAll (set2 s.Z d n (sampled d s n)) d' k := e1
    rw [e1', e2]
    unfold nDK
    have a1 : (d' = d ∧ k = get2 s.Z d n) ↔ (d = d' ∧ get2 s.Z d n = k) :=
      ⟨fun h => ⟨h.1.symm, h.2.symm⟩, fun h => ⟨h.1.symm, h.2.symm⟩⟩
    have a2 : (d' = d ∧ k = sampled d s n) ↔ (d = d' ∧ sampled d s n = k) :=
      ⟨fun h => ⟨h.1.symm, h.2.symm⟩, fun h => ⟨h.1.symm, h.2.symm⟩⟩
    simp only [a1, a2]
    exact key
  · intro k w hk hw
    have e1 := hI'.agg.ckw k w hk hw
    have e2 := hI.agg.ckw k w hk hw
    have key := cnt_replace s.docs s.Z (fun a b c => get2 s.docs a b = w ∧ c = k) d n
      (sampled d s n) hd hn hdZ hnZ
    have e1' : get2 (estimateToken d s n).CKW k w =
        nKW s.docs maskAll (set2 s.Z d n (sampled d s n)) k w := e1
    rw [e1', e2]
    unfold nKW
    have a1 : (k = get2 s.Z d n ∧ w = get2 s.docs d n) ↔
        (get2 s.docs d n = w ∧ get2 s.Z d n = k) :=
      ⟨fun h => ⟨h.2.symm, h.1.symm⟩, fun h => ⟨h.2.symm, h.1.symm⟩⟩
    have a2 : (k = sampled d s n ∧ w = get2 s.docs d n) ↔
        (get2 s.docs d n = w ∧ sampled d s n = k) :=
      ⟨fun h => ⟨h.2.symm, h.1.symm⟩, fun h => ⟨h.2.symm, h.1.symm⟩⟩
    simp only [a1, a2]
    exact key
  · intro k hk
    have e1 := hI'.agg.ck k hk
    have e2 := hI.agg.ck k hk
    have key := cnt_replace s.docs s.Z (fun _ _ c => c = k) d n (sampled d s n)
      hd hn hdZ hnZ
    have e1' : get1 (estimateToken d s n).CK k =
        nK s.docs maskAll (set2 s.Z d n (sampled d s n)) k := e1
    rw [e1', e2]
    unfold nK
    have a1 : (k = get2 s.Z d n) ↔ (get2 s.Z d n = k) := eq_comm
    have a2 : (k = sampled d s n) ↔ (sampled d s n = k) := eq_comm
    simp only [a1, a2]
    exact key

/-- C12. A token update of `estimate` for token `(d, n)` with term `w`, old
topic `t_old = Z[d][n]` and sampled topic `t_new` writes `t_new` to `Z[d][n]`
and leaves every other entry of `Z`; in `CDK` (row `d`), `CKW` (column `w`) and
`CK` the cell of `t_old` loses one and the cell of `t_new` gains one, every
other cell is unchanged; the token count, the corpus and the parameters are
unchanged; and when `t_new = t_old` the assignments and the three tables are
those before the update. -/
theorem token_update_frame (s : LDA) (h : Reachable s) (d n : Nat)
    (hd : d < s.docs.length) (hn : n < (s.docs.getD d []).length) :
    (∀ d' n', get2 (estimateToken d s n).Z d' n' =
      if d' = d ∧ n' = n then sampled d s n else get2 s.Z d' n') ∧
    (∀ d' k, d' < s.docs.length → k < s.K →
      get2 (estimateToken d s n).CDK d' k + (if d' = d ∧ k = get2 s.Z d n then 1 else 0) =
        get2 s.CDK d' k + (if d' = d ∧ k = sampled d s n then 1 else 0)) ∧
    (∀ k w, k < s.K → w < s.V →
      get2 (estimateToken d s n).CKW k w +
          (if k = get2 s.Z d n ∧ w = get2 s.docs d n then 1 else 0) =
        get2 s.CKW k w + (if k = sampled d s n ∧ w = get2 s.docs d n then 1 else 0)) ∧
    (∀ k, k < s.K →
      get1 (estimateToken d s n).CK k + (if k = get2 s.Z d n then 1 else 0) =
        get1 s.CK k + (if k = sampled d s n then 1 else 0)) ∧
    ((estimateToken d s n).total_num_of_words = s.total_num_of_words ∧
      (estimateToken d s n).docs = s.docs ∧ (estimateToken d s n).K = s.K ∧
      (estimateToken d s n).V = s.V ∧ (estimateToken d s n).alpha = s.alpha ∧
      (estimateToken d s n).beta = s.beta) ∧
    (sampled d s n = get2 s.Z d n →
      (estimateToken d s n).Z = s.Z ∧ (estimateToken d s n).CDK = s.CDK ∧
      (estimateToken d s n).CKW = s.CKW ∧ (estimateToken d s n).CK = s.CK) := by
  have hI := reachable_inv s h
  have hI' := estimateToken_inv s d n hI hd hn
  have hdZ : d < s.Z.length := by rw [hI.agg.lenZ]; exact hd
  have hnZ : n < (s.Z.getD d []).length := by rw [hI.rowZ d hd]; exact hn
  obtain ⟨c1, c2, c3⟩ := token_update_counts s hI d n hd hn
  refine ⟨?_, c1, c2, c3, ⟨rfl, rfl, rfl, rfl, rfl, rfl⟩, ?_⟩
  · intro d' n'
    rw [estimateToken_Z, get2_set2]
    by_cases hc : d' = d ∧ n' = n
    · rw [if_pos ⟨hc.1, hc.2, hdZ, hnZ⟩, if_pos hc]
    · rw [if_neg (fun hh => hc ⟨hh.1, hh.2.1⟩), if_neg hc]
  · intro heq
    refine ⟨?_, ?_, ?_, ?_⟩
    · rw [estimateToken_Z, heq, set2_self]
    · apply matrix_ext
      · rw [hI'.agg.lenCDK, hI.agg.lenCDK]; rfl
      · intro i hi
        rw [hI'.agg.lenCDK] at hi
        rw [hI'.agg.rowCDK i hi, hI.agg.rowCDK i hi]; rfl
      · intro i j hi hj
        rw [hI'.agg.lenCDK] at hi
        rw [hI'.agg.rowCDK i hi] at hj
        have := c1 i j hi hj
        rw [heq] at this
        omega
    · apply matrix_ext
      · rw [hI'.agg.lenCKW, hI.agg.lenCKW]; rfl
      · intro i hi
        rw [hI'.agg.lenCKW] at hi
        rw [hI'.agg.rowCKW i hi, hI.agg.rowCKW i hi]; rfl
      · intro i j hi hj
        rw [hI'.agg.lenCKW] at hi
        rw [hI'.agg.rowCKW i hi] at hj
        have := c2 i j hi hj
        rw [heq] at this
        omega
    · apply vector_ext
      · rw [hI'.agg.lenCK, hI.agg.lenCK]; rfl
      · intro i hi
        rw [hI'.agg.lenCK] at hi
        have := c3 i hi
        rw [heq] at this
        omega


/-- Witness of C12: the update of token `(1, 0)` of the scenario engine. -/
theorem token_update_frame_witness :
    (∀ k, k < scenarioEngine.K →
      get1 (estimateToken 1 scenarioEngine 0).CK k +
          (if k = get2 scenarioEngine.Z 1 0 then 1 else 0) =
        get1 scenarioEngine.CK k + (if k = sampled 1 scenarioEngine 0 then 1 else 0)) ∧
    (estimateToken 1 scenarioEngine 0).total_num_of_words =
      scenarioEngine.total_num_of_words :=
  ⟨(token_update_frame scenarioEngine scenario_reachable 1 0 (by decide!) (by decide!)).2.2.2.1,
    (token_update_frame scenarioEngine scenario_reachable 1 0 (by decide!)
      (by decide!)).2.2.2.2.1.1⟩

/-! ## Passes of `estimate` -/

theorem mem_tokenOrder (docs : List (List Nat)) (p : Nat × Nat) :
    p ∈ tokenOrder docs ↔ p ∈ tokens docs := by
  obtain ⟨d, n⟩ := p
  rw [mem_tokens]
  simp only [tokenOrder, List.mem_flatMap, List.mem_range, List.mem_map, Prod.mk.injEq]
  constructor
  · rintro ⟨a, ha, b, hb, rfl, rfl⟩
    exact ⟨ha, hb⟩
  · rintro ⟨h1, h2⟩
    exact ⟨d, h1, n, h2, rfl, rfl⟩

theorem tokenOrder_pairwise (docs : List (List Nat)) :
    (tokenOrder docs).Pairwise tokenLt := by
  unfold tokenOrder
  rw [List.pairwise_flatMap]
  constructor
  · intro d _
    rw [List.pairwise_map]
    exact (List.pairwise_lt_range _).imp (fun h => Or.inr ⟨rfl, h⟩)
  · apply (List.pairwise_lt_range _).imp
    intro a b hab x hx y hy
    rw [List.mem_map] at hx hy
    obtain ⟨_, _, rfl⟩ := hx
    obtain ⟨_, _, rfl⟩ := hy
    exact Or.inl hab

theorem tokenOrder_nodup (docs : List (List Nat)) : (tokenOrder docs).Nodup := by
  have h := tokenOrder_pairwise docs
  unfold List.Nodup
  apply h.imp
  intro a b hab heq
  subst heq
  rcases hab with h1 | ⟨_, h2⟩
  · exact lt_irrefl _ h1
  · exact lt_irrefl _ h2

theorem tokenOrder_length (docs : List (List Nat)) :
    (tokenOrder docs).length = numTokens docs := by
  rw [← card_tokens, ← List.toFinset_card_of_nodup (tokenOrder_nodup docs)]
  congr 1
  ext p
  rw [List.mem_toFinset, mem_tokenOrder]

theorem foldl_docs_eq_foldl_tokens (ds : List Nat) (s : LDA) :
    ds.foldl estimateDoc s =
      (ds.flatMap fun d => (List.range (s.docs.getD d []).length).map fun n => (d, n)).foldl
        (fun s' p => estimateToken p.1 s' p.2) s := by
  induction ds generalizing s with
  | nil => rfl
  | cons d ds ih =>
    rw [List.foldl_cons, ih, List.flatMap_cons, List.foldl_append, List.foldl_map]
    have hdocs : (estimateDoc s d).docs = s.docs := (estimateDoc_sameParams s d).1
    rw [hdocs]
    rfl

theorem estimatePass_eq_tokens (s : LDA) :
    estimatePass s =
      (tokenOrder s.docs).foldl (fun s' p => estimateToken p.1 s' p.2) s := by
  unfold estimatePass tokenOrder
  exact foldl_docs_eq_foldl_tokens _ s

theorem foldl_tokens_pos (l : List (Nat × Nat)) (s : LDA) :
    (l.foldl (fun s' p => estimateToken p.1 s' p.2) s).generator.pos =
      s.generator.pos + l.length := by
  induction l generalizing s with
  | nil => rfl
  | cons p l ih =>
    rw [List.foldl_cons, ih, List.length_cons]
    show s.generator.pos + 1 + l.length = _
    omega

theorem estimatePass_pos (s : LDA) :
    (estimatePass s).generator.pos = s.generator.pos + numTokens s.docs := by
  rw [estimatePass_eq_tokens, foldl_tokens_pos, tokenOrder_length]

theorem estimate_succ (s : LDA) (i : Nat) :
    estimate s (i + 1) = estimatePass (estimate s i) := by
  unfold estimate
  rw [List.range_succ, List.foldl_append]
  rfl

theorem estimate_pos (s : LDA) (iters : Nat) :
    (estimate s iters).generator.pos = s.generator.pos + iters * numTokens s.docs := by
  induction iters with
  | zero => simp [estimate]
  | succ i ih =>
    rw [estimate_succ, estimatePass_pos, ih, (estimate_sameParams s i).1]
    ring

/-- C13. `estimate(num_iterations)` is `num_iterations` passes; a pass is the
token update applied along the tokens of the corpus in increasing document and
then increasing position, each token exactly once; so it makes exactly
`num_iterations * total_num_of_words` draws, `estimate(0)` is the identity, and
`estimate` (a total function here) returns for every input. -/
theorem estimate_passes (s : LDA) (num_iterations : Nat) :
    estimate s 0 = s ∧
    (∀ i, estimate s (i + 1) = estimatePass (estimate s i)) ∧
    estimatePass s = (tokenOrder s.docs).foldl (fun s' p => estimateToken p.1 s' p.2) s ∧
    (tokenOrder s.docs).Pairwise tokenLt ∧ (tokenOrder s.docs).Nodup ∧
    (∀ d n, (d, n) ∈ tokenOrder s.docs ↔ d < s.docs.length ∧ n < (s.docs.getD d []).length) ∧
    (tokenOrder s.docs).length = numTokens s.docs ∧
    (estimate s num_iterations).generator.pos =
      s.generator.pos + num_iterations * numTokens s.docs ∧
    (Reachable s →
      s.total_num_of_words = numTokens s.docs ∧
      (estimate s num_iterations).generator.pos =
        s.generator.pos + num_iterations * s.total_num_of_words) := by
  refine ⟨rfl, estimate_succ s, estimatePass_eq_tokens s, tokenOrder_pairwise _,
    tokenOrder_nodup _, ?_, tokenOrder_length _, estimate_pos s num_iterations, ?_⟩
  · intro d n
    rw [mem_tokenOrder, mem_tokens]
  · intro h
    have hI := reachable_inv s h
    have ht : s.total_num_of_words = numTokens s.docs := by rw [hI.total, card_tokens]
    exact ⟨ht, by rw [ht]; exact estimate_pos s num_iterations⟩

/-- Witness of C13: 50 passes on the scenario engine make `50 * 5` draws. -/
theorem estimate_passes_witness :
    scenarioEngine.total_num_of_words = numTokens scenarioEngine.docs ∧
    (estimate scenarioEngine 50).generator.pos =
      scenarioEngine.generator.pos + 50 * scenarioEngine.total_num_of_words :=
  (estimate_passes scenarioEngine 50).2.2.2.2.2.2.2.2 scenario_reachable

/-! ## Decrements: inference and training -/

theorem inferRun_eq (e : LDA) (batch_docs : List (List Nat)) (num_iterations : Nat)
    (g : Generator) :
    inferRun e batch_docs num_iterations g =
      inferTheta (inferPasses e batch_docs num_iterations g) := rfl

set_option maxRecDepth 1000000 in
/-- C14 (fails on the code). On the engine `splitEngine`, the batch `[[1]]` and
the initial draw `0`, the first pass moves the token to topic 1 in `cdk` but
`topic_indices[0][0]` stays `0`: after the pass `cdk[0] = [0, 1]` is not the
tally of `topic_indices[0] = [0]`, and the decrement of the second pass is
applied to `cdk[0][0] = 0`, which wraps to `2 ^ 64 - 1`. -/
theorem infer_decrement_wraps :
    (inferPasses splitEngine [[1]] 1 lowGen).topic_indices = [[0]] ∧
    (inferPasses splitEngine [[1]] 1 lowGen).cdk = [[0, 1]] ∧
    get2 (inferPasses splitEngine [[1]] 1 lowGen).cdk 0
      (get2 (inferPasses splitEngine [[1]] 1 lowGen).topic_indices 0 0) = 0 ∧
    get2 (inferPasses splitEngine [[1]] 1 lowGen).cdk 0 1 ≠
      ((Finset.range 1).filter fun n =>
        get2 (inferPasses splitEngine [[1]] 1 lowGen).topic_indices 0 n = 1).card ∧
    upd2 decr (inferPasses splitEngine [[1]] 1 lowGen).cdk 0
      (get2 (inferPasses splitEngine [[1]] 1 lowGen).topic_indices 0 0) =
        [[18446744073709551615, 1]] ∧
    (inferToken 0 (inferPasses splitEngine [[1]] 1 lowGen) 0).cdk =
      [[18446744073709551615, 2]] ∧
    (inferPasses splitEngine [[1]] 2 lowGen).cdk = [[18446744073709551615, 2]] := by
  decide!

theorem retract_counts (s : LDA) (hI : Inv s) (d n : Nat)
    (hd : d < s.docs.length) (hn : n < (s.docs.getD d []).length) :
    get2 (retract d s n).CDK d (get2 s.Z d n) + 1 = get2 s.CDK d (get2 s.Z d n) ∧
    get2 (retract d s n).CKW (get2 s.Z d n) (get2 s.docs d n) + 1 =
      get2 s.CKW (get2 s.Z d n) (get2 s.docs d n) ∧
    get1 (retract d s n).CK (get2 s.Z d n) + 1 = get1 s.CK (get2 s.Z d n) := by
  have hA := retract_agg s d n hI hd hn
  have hz := hI.agg.zlt d n hd hn rfl
  have hw := hI.wf.terms d n hd hn
  refine ⟨?_, ?_, ?_⟩
  · rw [hA.cdk d _ hd hz, hI.agg.cdk d _ hd hz]
    have := cnt_del_mask s.docs maskAll s.Z (fun a _ c => a = d ∧ c = get2 s.Z d n) d n
      hd hn rfl
    rw [if_pos ⟨rfl, rfl⟩] at this
    exact this.symm
  · rw [hA.ckw _ _ hz hw, hI.agg.ckw _ _ hz hw]
    have := cnt_del_mask s.docs maskAll s.Z
      (fun a b c => get2 s.docs a b = get2 s.docs d n ∧ c = get2 s.Z d n) d n hd hn rfl
    rw [if_pos ⟨rfl, rfl⟩] at this
    exact this.symm
  · rw [hA.ck _ hz, hI.agg.ck _ hz]
    have := cnt_del_mask s.docs maskAll s.Z (fun _ _ c => c = get2 s.Z d n) d n hd hn rfl
    rw [if_pos rfl] at this
    exact this.symm

theorem commit_no_wrap (s : LDA) (hI : Inv s) (d n t : Nat)
    (hd : d < s.docs.length) (hn : n < (s.docs.getD d []).length) (ht : t < s.K) :
    get2 (retract d s n).CDK d t + 1 < 2 ^ 64 ∧
    get2 (retract d s n).CKW t (get2 s.docs d n) + 1 < 2 ^ 64 ∧
    get1 (retract d s n).CK t + 1 < 2 ^ 64 := by
  have hA := retract_agg s d n hI hd hn
  have hw := hI.wf.terms d n hd hn
  have hsize : (tokens s.docs).card < 2 ^ 64 := hI.wf.size
  have hdZ : d < s.Z.length := by rw [hI.agg.lenZ]; exact hd
  have hnZ : n < (s.Z.getD d []).length := by rw [hI.rowZ d hd]; exact hn
  have hZt : get2 (set2 s.Z d n t) d n = t := by
    rw [get2_set2, if_pos ⟨rfl, rfl, hdZ, hnZ⟩]
  have hZo : ∀ d' n', ¬ (d' = d ∧ n' = n) →
      get2 (set2 s.Z d n t) d' n' = get2 s.Z d' n' := by
    intro d' n' hne
    rw [get2_set2, if_neg (fun hh => hne ⟨hh.1, hh.2.1⟩)]
  have hM : maskDel maskAll d n d n = false := by simp [maskDel]
  refine ⟨?_, ?_, ?_⟩
  · rw [hA.cdk d t hd ht]
    have key := cnt_add_mask s.docs (maskDel maskAll d n) s.Z (set2 s.Z d n t)
      (fun a _ c => a = d ∧ c = t) d n t hd hn hM hZt hZo
    rw [if_pos ⟨rfl, rfl⟩] at key
    have hle := cnt_le s.docs (fun d' n' => maskAdd (maskDel maskAll d n) d n d' n' = true ∧
      d' = d ∧ get2 (set2 s.Z d n t) d' n' = t)
    rw [key] at hle
    exact lt_of_le_of_lt hle hsize
  · rw [hA.ckw t _ ht hw]
    have key := cnt_add_mask s.docs (maskDel maskAll d n) s.Z (set2 s.Z d n t)
      (fun a b c => get2 s.docs a b = get2 s.docs d n ∧ c = t) d n t hd hn hM hZt hZo
    rw [if_pos ⟨rfl, rfl⟩] at key
    have hle := cnt_le s.docs (fun d' n' => maskAdd (maskDel maskAll d n) d n d' n' = true ∧
      get2 s.docs d' n' = get2 s.docs d n ∧ get2 (set2 s.Z d n t) d' n' = t)
    rw [key] at hle
    exact lt_of_le_of_lt hle hsize
  · rw [hA.ck t ht]
    have key := cnt_add_mask s.docs (maskDel maskAll d n) s.Z (set2 s.Z d n t)
      (fun _ _ c => c = t) d n t hd hn hM hZt hZo
    rw [if_pos rfl] at key
    have hle := cnt_le s.docs (fun d' n' => maskAdd (maskDel maskAll d n) d n d' n' = true ∧
      get2 (set2 s.Z d n t) d' n' = t)
    rw [key] at hle
    exact lt_of_le_of_lt hle hsize

theorem sampled_lt (s : LDA) (hI : Inv s) (d n : Nat) : sampled d s n < s.K :=
  mult_lt _ hI.wf.draws _ _ hI.wf.topics (length_prob_vector d s n)

/-- C15. In every state reachable by construction followed by token updates,
for every token `(d, n)` with `topic_id = Z[d][n]` and `term_id = docs[d][n]`:
all indexings of the update are in bounds, the three counters `CDK[d][topic_id]`,
`CKW[topic_id][term_id]` and `CK[topic_id]` are at least `1` when they are
decremented (so each decrement takes off exactly one, without wrap-around), and
the three increments at the sampled topic stay below `2 ^ 64`. -/
theorem decrements_safe (s : LDA) (h : Reachable s) (d n : Nat)
    (hd : d < s.docs.length) (hn : n < (s.docs.getD d []).length) :
    (d < s.Z.length ∧ n < (s.Z.getD d []).length ∧
      get2 s.Z d n < s.K ∧ get2 s.docs d n < s.V ∧ sampled d s n < s.K ∧
      s.CDK.length = s.docs.length ∧ (s.CDK.getD d []).length = s.K ∧
      s.CKW.length = s.K ∧ (∀ k, k < s.K → (s.CKW.getD k []).length = s.V) ∧
      s.CK.length = s.K) ∧
    (1 ≤ get2 s.CDK d (get2 s.Z d n) ∧
      1 ≤ get2 s.CKW (get2 s.Z d n) (get2 s.docs d n) ∧
      1 ≤ get1 s.CK (get2 s.Z d n)) ∧
    (get2 (retract d s n).CDK d (get2 s.Z d n) + 1 = get2 s.CDK d (get2 s.Z d n) ∧
      get2 (retract d s n).CKW (get2 s.Z d n) (get2 s.docs d n) + 1 =
        get2 s.CKW (get2 s.Z d n) (get2 s.docs d n) ∧
      get1 (retract d s n).CK (get2 s.Z d n) + 1 = get1 s.CK (get2 s.Z d n)) ∧
    (get2 (retract d s n).CDK d (sampled d s n) + 1 < 2 ^ 64 ∧
      get2 (retract d s n).CKW (sampled d s n) (get2 s.docs d n) + 1 < 2 ^ 64 ∧
      get1 (retract d s n).CK (sampled d s n) + 1 < 2 ^ 64) := by
  have hI := reachable_inv s h
  obtain ⟨hz, h1, h2, h3⟩ := inv_token_counts s hI d n hd hn
  refine ⟨⟨?_, ?_, hz, hI.wf.terms d n hd hn, sampled_lt s hI d n, hI.agg.lenCDK,
    hI.agg.rowCDK d hd, hI.agg.lenCKW, hI.agg.rowCKW, hI.agg.lenCK⟩, ⟨h1, h2, h3⟩,
    retract_counts s hI d n hd hn, commit_no_wrap s hI d n _ hd hn (sampled_lt s hI d n)⟩
  · rw [hI.agg.lenZ]; exact hd
  · rw [hI.rowZ d hd]; exact hn

/-- Witness of C15: token `(0, 2)` of the scenario engine after 50 passes. -/
theorem decrements_safe_witness :
    1 ≤ get2 (estimate scenarioEngine 50).CDK 0 (get2 (estimate scenarioEngine 50).Z 0 2) ∧
    1 ≤ get2 (estimate scenarioEngine 50).CKW (get2 (estimate scenarioEngine 50).Z 0 2)
      (get2 (estimate scenarioEngine 50).docs 0 2) ∧
    1 ≤ get1 (estimate scenarioEngine 50).CK (get2 (estimate scenarioEngine 50).Z 0 2) :=
  (decrements_safe (estimate scenarioEngine 50)
    (reachable_estimate scenarioEngine 50 scenario_reachable) 0 2
    (by rw [(estimate_sameParams scenarioEngine 50).1, scenario_docs]; decide)
    (by rw [(estimate_sameParams scenarioEngine 50).1, scenario_docs]; decide)).2.1

/-! ## Positive sampling weights -/

theorem score_den_ne (beta : ℚ) (V ck : Nat) (hb : 0 < beta) (hV : 1 ≤ V) :
    (ck : ℚ) + (V : ℚ) * beta ≠ 0 := by
  have h1 : (0 : ℚ) ≤ (ck : ℚ) := Nat.cast_nonneg _
  have h2 : (0 : ℚ) < (V : ℚ) := by exact_mod_cast hV
  have h3 : (0 : ℚ) < (V : ℚ) * beta := mul_pos h2 hb
  exact ne_of_gt (by linarith)

theorem inferPasses_reachable (e : LDA) (batch_docs : List (List Nat)) (num_iterations : Nat)
    (g : Generator) :
    InferReachable e batch_docs g (inferPasses e batch_docs num_iterations g) := by
  unfold inferPasses
  apply foldl_inferReachable
  · intro st _ h
    unfold inferPass
    apply foldl_inferReachable _ _ _ _ _ _ _ h
    intro st' d h'
    unfold inferDoc
    exact foldl_inferReachable _ _ _ _ _ (fun st'' n h'' => InferReachable.token st'' d n h'') _ h'
  · apply foldl_inferReachable _ _ _ _ _ _ _ InferReachable.alloc
    intro st d h
    unfold inferInitDoc
    exact foldl_inferReachable _ _ _ _ _
      (fun st'' n h'' => InferReachable.initToken st'' d n h'') _ (InferReachable.initRow st d h)

/-- C16 (amended). In exact arithmetic, with `alpha > 0` and `beta > 0`: in every
reachable training state and for every token, `V >= 1`, every denominator
`CK[k] + V * beta` of the scoring loop of `estimate` is non-zero and every one of
the `K` scores is defined and strictly positive; and in every program state of
`infer` on an engine with `V >= 1`, every denominator is non-zero and every one
of the `K` scores of a token update is defined and strictly positive (whatever
the values of the transient counters, so in particular when they have not
wrapped).  The scores are the rational values of the expressions, not their
binary32 roundings. -/
theorem scores_positive :
    (∀ s, Reachable s → 0 < s.alpha → 0 < s.beta →
      ∀ d n, d < s.docs.length → n < (s.docs.getD d []).length →
        1 ≤ s.V ∧ (prob_vector d s n).length = s.K ∧
        ∀ k, k < s.K →
          (get1 (retract d s n).CK k : ℚ) + (s.V : ℚ) * s.beta ≠ 0 ∧
          ∃ q, (prob_vector d s n).getD k none = some q ∧ 0 < q) ∧
    (∀ (e : LDA) (batch_docs : List (List Nat)) (g : Generator) (st : InferState),
      InferReachable e batch_docs g st → 0 < e.alpha → 0 < e.beta → 1 ≤ e.V →
      ∀ d n, (inferToken d st n).prob_vector.length = e.K ∧
        ∀ k, k < e.K →
          (get1 e.CK k : ℚ) + (e.V : ℚ) * e.beta ≠ 0 ∧
          ∃ q, (inferToken d st n).prob_vector.getD k none = some q ∧ 0 < q) := by
  constructor
  · intro s h ha hb d n hd hn
    have hI := reachable_inv s h
    have hV : 1 ≤ s.V := Nat.succ_le_of_lt
      (Nat.lt_of_le_of_lt (Nat.zero_le _) (hI.wf.terms d n hd hn))
    refine ⟨hV, length_prob_vector d s n, ?_⟩
    intro k hk
    refine ⟨score_den_ne s.beta s.V _ hb hV, ?_⟩
    unfold prob_vector scores
    rw [getD_map_range _ _ _ _ (show k < (retract d s n).K from hk)]
    exact score_pos _ _ _ _ _ _ ha hb hV
  · intro e batch_docs g st hst ha hb hV d n
    have hself := (inferReachable_self e batch_docs g st hst).1
    have hpv : (inferToken d st n).prob_vector =
        (List.range e.K).map fun k =>
          score e.alpha e.beta e.V
            (get2 (upd2 decr st.cdk d (get2 st.topic_indices d n)) d k)
            (get2 e.CKW k (get2 st.batch_docs d n)) (get1 e.CK k) := by
      rw [← hself]
      rfl
    rw [hpv]
    refine ⟨by simp, ?_⟩
    intro k hk
    refine ⟨score_den_ne e.beta e.V _ hb hV, ?_⟩
    rw [getD_map_range _ _ _ _ hk]
    exact score_pos _ _ _ _ _ _ ha hb hV

set_option maxRecDepth 1000000 in
/-- C16 (as stated, fails). On the corpus `[[0]]` with `V = 1`, `K = 1` and the
`float` values `alpha = beta = 2 ^ -80 > 0`, the score of the only token as the
code computes it is `0`: the product `(0 + 2 ^ -80) * (0 + 2 ^ -80) = 2 ^ -160`
is below half the smallest positive `float` and rounds to `0`, while the exact
value of the score is `2 ^ -80`.  On the corpus `[[0]]` with `V = 4`, `K = 1`,
`alpha = 2 ^ -149` (the smallest positive `float`) and `beta = 1`, the exact
value of the score is `2 ^ -151`, which itself rounds to `0`, so the stored
`float` is `0` whatever the precision of the intermediate results. -/
theorem scores_positive_counterexample :
    (Reachable tinyEngine ∧ 0 < tinyEngine.alpha ∧ 0 < tinyEngine.beta ∧
      f32 tinyEngine.alpha = some tinyEngine.alpha ∧
      f32 tinyEngine.beta = some tinyEngine.beta ∧
      1 ≤ tinyEngine.V ∧ 0 < tinyEngine.docs.length ∧
      0 < (tinyEngine.docs.getD 0 []).length ∧
      f32mul (f32add (f32 0) (f32 tinyEngine.alpha)) (f32add (f32 0) (f32 tinyEngine.beta)) =
        some 0 ∧
      prob_vectorF32 0 tinyEngine 0 = [some 0] ∧
      prob_vector 0 tinyEngine 0 = [some (1 / 2 ^ 80)] ∧
      ¬ ∃ q, (prob_vectorF32 0 tinyEngine 0).getD 0 none = some q ∧ 0 < q) ∧
    (Reachable subnormalEngine ∧ 0 < subnormalEngine.alpha ∧ 0 < subnormalEngine.beta ∧
      f32 subnormalEngine.alpha = some subnormalEngine.alpha ∧
      f32 subnormalEngine.beta = some subnormalEngine.beta ∧
      1 ≤ subnormalEngine.V ∧ 0 < subnormalEngine.docs.length ∧
      0 < (subnormalEngine.docs.getD 0 []).length ∧
      prob_vector 0 subnormalEngine 0 = [some (1 / 2 ^ 151)] ∧
      ((prob_vector 0 subnormalEngine 0).map fun x => x.bind f32) = [some 0] ∧
      prob_vectorF32 0 subnormalEngine 0 = [some 0] ∧
      ¬ ∃ q, (prob_vectorF32 0 subnormalEngine 0).getD 0 none = some q ∧ 0 < q) := by
  refine ⟨⟨tinyEngine_reachable, by decide!, by decide!, by decide!, by decide!, by decide!,
    by decide!, by decide!, by decide!, by decide!, by decide!, ?_⟩,
    ⟨subnormalEngine_reachable, by decide!, by decide!, by decide!, by decide!, by decide!,
    by decide!, by decide!, by decide!, by decide!, by decide!, ?_⟩⟩
  · rintro ⟨q, hq, hpos⟩
    have h0 : (prob_vectorF32 0 tinyEngine 0).getD 0 none = some 0 := by decide!
    rw [h0] at hq
    rw [← Option.some.inj hq] at hpos
    exact lt_irrefl _ hpos
  · rintro ⟨q, hq, hpos⟩
    have h0 : (prob_vectorF32 0 subnormalEngine 0).getD 0 none = some 0 := by decide!
    rw [h0] at hq
    rw [← Option.some.inj hq] at hpos
    exact lt_irrefl _ hpos

/-- Witness of C16 (amended): token `(0, 0)` of the scenario engine, and the
first token update of an inference pass on it. -/
theorem scores_positive_witness :
    (∃ q, (prob_vector 0 scenarioEngine 0).getD 1 none = some q ∧ 0 < q) ∧
    (∃ q, (inferToken 0 (inferPasses scenarioEngine [[0, 0, 1]] 0 cyclicGen) 0).prob_vector.getD
      1 none = some q ∧ 0 < q) :=
  ⟨((scores_positive.1 scenarioEngine scenario_reachable (by decide!) (by decide!) 0 0
      (by decide!) (by decide!)).2.2 1 (by decide!)).2,
    (((scores_positive.2 scenarioEngine [[0, 0, 1]] cyclicGen
      (inferPasses scenarioEngine [[0, 0, 1]] 0 cyclicGen)
      (inferPasses_reachable scenarioEngine [[0, 0, 1]] 0 cyclicGen)
      (by decide!) (by decide!) (by decide!) 0 0).2 1 (by decide!)).2)⟩

/-! ## The likelihood and the extracted matrices -/

theorem fdiv_mul (a b x y : ℚ) : fdiv (a * b) (x * y) = fmul (fdiv a x) (fdiv b y) := by
  unfold fdiv fmul
  by_cases hx : x = 0
  · simp [hx]
  · by_cases hy : y = 0
    · simp [hx, hy]
    · have hxy : x * y ≠ 0 := mul_ne_zero hx hy
      rw [if_neg hxy, if_neg hx, if_neg hy]
      simp only [Option.some_bind, Option.map_some']
      rw [mul_div_mul_comm]

/-- C17. For every engine state and every token `(d, n)` whose term
`w = docs[d][n]` is below `V`, the likelihood summed inside
`calculate_perplexity` is the sum over `k` of `theta[d][k] * phi[k][w]` with
`theta = getDocTopicMatrix()` and `phi = getTopicTermMatrix()` on the same state,
in exact arithmetic (both sides have a value, the same, or neither has). -/
theorem likelihood_from_matrices (s : LDA) (d n : Nat) (hd : d < s.docs.length)
    (hw : get2 s.docs d n < s.V) :
    likelihood s d n = likelihoodFromMatrices s d n := by
  simp only [likelihood, likelihoodFromMatrices]
  congr 1
  apply List.map_congr_left
  intro k hk
  rw [List.mem_range] at hk
  unfold getDocTopicMatrix getTopicTermMatrix
  rw [getD_map_range _ _ _ _ hd, getD_map_range _ _ _ _ hk, getD_map_range _ _ _ _ hk,
    getD_map_range _ _ _ _ hw, ← fdiv_mul]
  congr 2
  ring

/-- Witness of C17: token `(1, 1)` of the scenario engine. -/
theorem likelihood_from_matrices_witness :
    likelihood scenarioEngine 1 1 = likelihoodFromMatrices scenarioEngine 1 1 :=
  likelihood_from_matrices scenarioEngine 1 1 (by decide!) (by decide!)

/-! ## The likelihood is at most one -/

theorem inv_ckw_le_ck (s : LDA) (hI : Inv s) (k w : Nat) (hk : k < s.K) (hw : w < s.V) :
    get2 s.CKW k w ≤ get1 s.CK k := by
  rw [inv_ck_ckw s hI k hk]
  exact Finset.single_le_sum (f := fun w => get2 s.CKW k w) (fun _ _ => Nat.zero_le _)
    (Finset.mem_range.2 hw)

theorem likelihood_le_one (s : LDA) (hI : Inv s) (ha : 0 ≤ s.alpha) (hb : 0 ≤ s.beta)
    (hden : ∀ k, k < s.K → (get1 s.CK k : ℚ) + (s.V : ℚ) * s.beta ≠ 0)
    (d n : Nat) (hd : d < s.docs.length) (hn : n < (s.docs.getD d []).length) :
    ∃ L, likelihood s d n = some L ∧ 0 < L ∧ L ≤ 1 := by
  obtain ⟨L, hL, hpos⟩ := likelihood_pos s hI ha hb hden d n hd hn
  refine ⟨L, hL, hpos, ?_⟩
  have hw := hI.wf.terms d n hd hn
  have hV : (1 : ℚ) ≤ (s.V : ℚ) := by
    exact_mod_cast (Nat.succ_le_of_lt (Nat.lt_of_le_of_lt (Nat.zero_le _) hw))
  have hN : (0 : ℚ) < (s.K : ℚ) * s.alpha + ((s.docs.getD d []).length : ℚ) := by
    have : (1 : ℚ) ≤ ((s.docs.getD d []).length : ℚ) := by
      exact_mod_cast (Nat.succ_le_of_lt (Nat.lt_of_le_of_lt (Nat.zero_le n) hn))
    have : (0 : ℚ) ≤ (s.K : ℚ) * s.alpha := mul_nonneg (Nat.cast_nonneg _) ha
    linarith
  have hC : ∀ k, k < s.K → (0 : ℚ) < (get1 s.CK k : ℚ) + (s.V : ℚ) * s.beta := by
    intro k hk
    have h0 : (0 : ℚ) ≤ (get1 s.CK k : ℚ) + (s.V : ℚ) * s.beta :=
      add_nonneg (Nat.cast_nonneg _) (mul_nonneg (Nat.cast_nonneg _) hb)
    exact lt_of_le_of_ne h0 (Ne.symm (hden k hk))
  have hval := fsum_map_range
    (fun k => fdiv (((get2 s.CDK d k : ℚ) + s.alpha) *
        ((get2 s.CKW k (get2 s.docs d n) : ℚ) + s.beta))
      (((s.K : ℚ) * s.alpha + ((s.docs.getD d []).length : ℚ)) *
        ((get1 s.CK k : ℚ) + (s.V : ℚ) * s.beta)))
    (fun k => (((get2 s.CDK d k : ℚ) + s.alpha) *
        ((get2 s.CKW k (get2 s.docs d n) : ℚ) + s.beta)) /
      (((s.K : ℚ) * s.alpha + ((s.docs.getD d []).length : ℚ)) *
        ((get1 s.CK k : ℚ) + (s.V : ℚ) * s.beta))) s.K
    (fun k hk => fdiv_of_ne _ _ (ne_of_gt (mul_pos hN (hC k hk))))
  have hval' : likelihood s d n = some _ := hval
  rw [hval'] at hL
  rw [← Option.some.inj hL]
  have hone : ∑ k ∈ Finset.range s.K, ((get2 s.CDK d k : ℚ) + s.alpha) /
      ((s.K : ℚ) * s.alpha + ((s.docs.getD d []).length : ℚ)) = 1 := by
    rw [← Finset.sum_div, Finset.sum_add_distrib, ← Nat.cast_sum, inv_row_sum s hI d hd,
      Finset.sum_const, Finset.card_range, nsmul_eq_mul, add_comm]
    exact div_self (ne_of_gt hN)
  rw [← hone]
  apply Finset.sum_le_sum
  intro k hk
  rw [Finset.mem_range] at hk
  rw [mul_div_mul_comm]
  have hratio : ((get2 s.CKW k (get2 s.docs d n) : ℚ) + s.beta) /
      ((get1 s.CK k : ℚ) + (s.V : ℚ) * s.beta) ≤ 1 := by
    rw [div_le_one (hC k hk)]
    have h1 : (get2 s.CKW k (get2 s.docs d n) : ℚ) ≤ (get1 s.CK k : ℚ) := by
      exact_mod_cast inv_ckw_le_ck s hI k _ hk hw
    have h2 : s.beta ≤ (s.V : ℚ) * s.beta := by nlinarith
    linarith
  have hfrac : (0 : ℚ) ≤ ((get2 s.CDK d k : ℚ) + s.alpha) /
      ((s.K : ℚ) * s.alpha + ((s.docs.getD d []).length : ℚ)) :=
    div_nonneg (add_nonneg (Nat.cast_nonneg _) ha) (le_of_lt hN)
  calc ((get2 s.CDK d k : ℚ) + s.alpha) /
        ((s.K : ℚ) * s.alpha + ((s.docs.getD d []).length : ℚ)) *
        (((get2 s.CKW k (get2 s.docs d n) : ℚ) + s.beta) /
          ((get1 s.CK k : ℚ) + (s.V : ℚ) * s.beta))
      ≤ ((get2 s.CDK d k : ℚ) + s.alpha) /
        ((s.K : ℚ) * s.alpha + ((s.docs.getD d []).length : ℚ)) * 1 :=
        mul_le_mul_of_nonneg_left hratio hfrac
    _ = _ := mul_one _

theorem all_some_unit (l : List (Option ℚ)) (h : ∀ x ∈ l, ∃ L, x = some L ∧ 0 < L ∧ L ≤ 1) :
    ∃ Ls : List ℚ, l = Ls.map some ∧ ∀ L ∈ Ls, 0 < L ∧ L ≤ 1 := by
  induction l with
  | nil => exact ⟨[], rfl, fun _ h => by simp at h⟩
  | cons x l ih =>
    obtain ⟨L, rfl, hL⟩ := h x (List.mem_cons_self _ _)
    obtain ⟨Ls, rfl, hLs⟩ := ih (fun y hy => h y (List.mem_cons_of_mem _ hy))
    refine ⟨L :: Ls, rfl, ?_⟩
    intro y hy
    rcases List.mem_cons.1 hy with h1 | h1
    · rw [h1]; exact hL
    · exact hLs y h1

theorem sum_log_nonpos (Ls : List ℚ) (h : ∀ L ∈ Ls, 0 < L ∧ L ≤ 1) :
    (Ls.map fun (L : ℚ) => Real.log (L : ℝ)).sum ≤ 0 := by
  induction Ls with
  | nil => simp
  | cons a l ih =>
    rw [List.map_cons, List.sum_cons]
    have ha := h a (List.mem_cons_self _ _)
    have h1 : Real.log (a : ℝ) ≤ 0 :=
      Real.log_nonpos (by exact_mod_cast le_of_lt ha.1) (by exact_mod_cast ha.2)
    have h2 := ih (fun y hy => h y (List.mem_cons_of_mem _ hy))
    linarith

/-- C18 (amended). In every state reachable by construction followed by token
updates, with `alpha >= 0`, `beta >= 0`, at least one token (hence `V >= 1`,
`K >= 1`), and every denominator `CK[k] + V * beta` different from zero (which
`beta > 0` ensures), the likelihood `calculate_perplexity` computes for each
token is defined, positive and at most `1`; hence the accumulated
log-likelihood is at most `0` and the returned perplexity is at least `1`. -/
theorem perplexity_ge_one (s : LDA) (h : Reachable s) (ha : 0 ≤ s.alpha) (hb : 0 ≤ s.beta)
    (hden : ∀ k, k < s.K → (get1 s.CK k : ℚ) + (s.V : ℚ) * s.beta ≠ 0)
    (htok : 0 < numTokens s.docs) :
    (∀ d n, d < s.docs.length → n < (s.docs.getD d []).length →
      ∃ L, likelihood s d n = some L ∧ 0 < L ∧ L ≤ 1) ∧
    s.total_num_of_words ≠ 0 ∧
    ∃ Ls : List ℚ, likelihoods s = Ls.map some ∧ (∀ L ∈ Ls, 0 < L ∧ L ≤ 1) ∧
      (Ls.map fun (L : ℚ) => Real.log (L : ℝ)).sum ≤ 0 ∧
      1 ≤ Real.exp (-(Ls.map fun (L : ℚ) => Real.log (L : ℝ)).sum / (s.total_num_of_words : ℝ)) := by
  have hI := reachable_inv s h
  have hlik := likelihood_le_one s hI ha hb hden
  refine ⟨hlik, ?_, ?_⟩
  · rw [hI.total, card_tokens]
    exact Nat.pos_iff_ne_zero.1 htok
  · obtain ⟨Ls, h1, h2⟩ := all_some_unit (likelihoods s) (by
      intro x hx
      simp only [likelihoods, List.mem_flatMap, List.mem_map, List.mem_range] at hx
      obtain ⟨d, hd, n, hn, rfl⟩ := hx
      exact hlik d n hd hn)
    have hs := sum_log_nonpos Ls h2
    refine ⟨Ls, h1, h2, hs, ?_⟩
    apply Real.one_le_exp
    exact div_nonneg (neg_nonneg.2 hs) (Nat.cast_nonneg _)

/-- C18 (as stated, fails). On the corpus `[[0]]` with `V = 1`, `K = 2`,
`alpha = 1`, `beta = 0` the likelihood of the only token contains the summand
`(0 + 1) * (0 + 0) / ((2 * 1 + 1) * (0 + 1 * 0))` of the empty topic 1, a
division by zero: it has no value, so it is not a number that is at most `1`. -/
theorem perplexity_ge_one_counterexample :
    Reachable emptyTopicEngine ∧ 0 ≤ emptyTopicEngine.alpha ∧ 0 ≤ emptyTopicEngine.beta ∧
    1 ≤ emptyTopicEngine.V ∧ 1 ≤ emptyTopicEngine.K ∧
    0 < numTokens emptyTopicEngine.docs ∧
    likelihoods emptyTopicEngine = [none] ∧
    ¬ ∃ L, likelihood emptyTopicEngine 0 0 = some L ∧ L ≤ 1 := by
  refine ⟨emptyTopicEngine_reachable, by decide!, by decide!, by decide!, by decide!,
    by decide!, by decide!, ?_⟩
  rintro ⟨L, hL, -⟩
  have : likelihood emptyTopicEngine 0 0 = none := by decide!
  rw [this] at hL
  exact Option.noConfusion hL

/-- Witness of C18 (amended): the scenario engine (`beta = 1/10`). -/
theorem perplexity_ge_one_witness :
    (∀ d n, d < scenarioEngine.docs.length → n < (scenarioEngine.docs.getD d []).length →
      ∃ L, likelihood scenarioEngine d n = some L ∧ 0 < L ∧ L ≤ 1) ∧
    scenarioEngine.total_num_of_words ≠ 0 ∧
    ∃ Ls : List ℚ, likelihoods scenarioEngine = Ls.map some ∧ (∀ L ∈ Ls, 0 < L ∧ L ≤ 1) ∧
      (Ls.map fun (L : ℚ) => Real.log (L : ℝ)).sum ≤ 0 ∧
      1 ≤ Real.exp (-(Ls.map fun (L : ℚ) => Real.log (L : ℝ)).sum /
        (scenarioEngine.total_num_of_words : ℝ)) :=
  perplexity_ge_one scenarioEngine scenario_reachable (by decide!) (by decide!)
    (by decide!) (by decide!)

end FastLDA
